import Mathlib

/-!
Verification of the portfolio-solver framework core against its
natural-language specification.  The Rust source is shallowly embedded:
pure fragments become Lean functions over `Nat`/`Int`/`String`/`List`,
the stateful scheduler becomes explicit state passing over association
lists, and rational arithmetic stands in for the enforcer's `f64`
ratios.  Definitions follow the source files named in each section.
-/

namespace PortfolioSolver

/-! ## Objective types (src/model_parser.rs) -/

/-- `type ObjectiveValue = i64` from model_parser.rs. -/
abbrev ObjectiveValue := Int

/-- `enum ObjectiveType` from model_parser.rs. -/
inductive ObjectiveType where
  | Satisfy
  | Minimize
  | Maximize
  deriving DecidableEq, Repr

/-- `ObjectiveType::is_better` from model_parser.rs lines 40-48. -/
def ObjectiveType.is_better (t : ObjectiveType) (old : Option ObjectiveValue)
    (new : ObjectiveValue) : Bool :=
  match t, old with
  | _, none => true
  | .Maximize, some val => val < new
  | .Minimize, some val => val > new
  | .Satisfy, some _ => true

/-- Strict domination of `new` over `old` under an objective type, read off
the spec's words: smaller is better for `Minimize`, larger for `Maximize`,
and `Satisfy` admits any solution. -/
def strictlyDominates (t : ObjectiveType) (old : ObjectiveValue)
    (new : ObjectiveValue) : Prop :=
  match t with
  | .Satisfy => True
  | .Minimize => new < old
  | .Maximize => old < new

/-! ## Solver output statuses (src/solver_output.rs, src/solver_output/dzn.rs) -/

/-- `enum Status` from solver_output.rs. -/
inductive Status where
  | OptimalSolution
  | Unsatisfiable
  | Unbounded
  | Unknown
  deriving DecidableEq, Repr

/-- `SOLUTION_TERMINATOR` from solver_output/dzn.rs. -/
def SOLUTION_TERMINATOR : String := "----------"

/-- `DONE_TERMINATOR` from solver_output/dzn.rs. -/
def DONE_TERMINATOR : String := "=========="

/-- `UNSATISFIABLE_TERMINATOR` from solver_output/dzn.rs. -/
def UNSATISFIABLE_TERMINATOR : String := "=====UNSATISFIABLE====="

/-- `UNBOUNDED_TERMINATOR` from solver_output/dzn.rs. -/
def UNBOUNDED_TERMINATOR : String := "=====UNBOUNDED====="

/-- `UNKNOWN_TERMINATOR` from solver_output/dzn.rs. -/
def UNKNOWN_TERMINATOR : String := "=====UNKNOWN====="

/-- `Status::to_dzn_string` from solver_output/dzn.rs. -/
def Status.to_dzn_string : Status → String
  | .OptimalSolution => DONE_TERMINATOR
  | .Unsatisfiable => UNSATISFIABLE_TERMINATOR
  | .Unbounded => UNBOUNDED_TERMINATOR
  | .Unknown => UNKNOWN_TERMINATOR

/-! ## The receiver task (src/solver_manager.rs lines 160-204)

`SolverManager::receiver` consumes the merged solver message stream and is
the single writer of the published best bound.  We embed the messages, the
mutable state (`objective`, the shared `best_objective`, and whether the
program cancellation token was cancelled) and the loop itself. -/

/-- `enum Msg` from solver_manager.rs: a parsed solution (dzn block plus
optional objective) or a status. -/
inductive Msg where
  | solution (s : String) (objective : Option ObjectiveValue)
  | status (st : Status)

/-- What the receiver writes to stdout: a solution block or a status
wire-form line. -/
inductive PrintEvent where
  | sol (s : String) (objective : Option ObjectiveValue)
  | status (st : Status)
  deriving DecidableEq, Repr

/-- The receiver's mutable context: its local `objective` variable, the
shared `best_objective` RwLock contents, and the program cancellation
token. -/
structure RecvState where
  objective : Option ObjectiveValue
  shared : Option ObjectiveValue
  cancelled : Bool
  deriving DecidableEq, Repr

/-- `SolverManager::receiver` from solver_manager.rs lines 160-204 as a
fold over the incoming message list, returning the final state and the
list of printed events in order.  A solution with an objective is printed
only when `is_better` accepts it; a solution without an objective prints
and cancels; a non-`Unknown` status prints its wire form and cancels. -/
def receiverRun (t : ObjectiveType) (st : RecvState) :
    List Msg → RecvState × List PrintEvent
  | [] => (st, [])
  | .solution s (some o) :: rest =>
    if t.is_better st.objective o then
      let st' : RecvState := { st with objective := some o, shared := some o }
      let r := receiverRun t st' rest
      (r.1, .sol s (some o) :: r.2)
    else
      receiverRun t st rest
  | .solution s none :: _ =>
    ({ st with cancelled := true }, [.sol s none])
  | .status stat :: rest =>
    if stat = Status.Unknown then
      receiverRun t st rest
    else
      ({ st with cancelled := true }, [.status stat])

/-- The objectives of the printed solutions, in print order. -/
def printedObjectives (evs : List PrintEvent) : List ObjectiveValue :=
  evs.filterMap fun e =>
    match e with
    | .sol _ (some o) => some o
    | _ => none

/-- `improvingChain t b os` says: each objective in `os` was accepted by
`is_better` against the best bound seen so far (starting from `b`), and
became the new best.  This is exactly "no printed regression". -/
def improvingChain (t : ObjectiveType) : Option ObjectiveValue →
    List ObjectiveValue → Prop
  | _, [] => True
  | b, o :: os => t.is_better b o = true ∧ improvingChain t (some o) os

/-! ## Bound injection (src/insert_objective.rs)

`insert_objective` reads the flatfile, splits it on `';'`, inspects the
last chunk as the solve statement, builds an `int_le` constraint and
splices it in before that chunk.  We embed it at the level of file
contents: the function below maps the original content to the content
written to the fresh temp file, or to the error the Rust function
returns. -/

/-- `enum Error` from insert_objective.rs (the content-level variants). -/
inductive InsertError where
  | NoStatements (content : String)
  | LastStatementNotSolve (statement : String)
  | SplitReturnedEmptyIterator
  | GetObjectiveOnSatisfyType
  deriving DecidableEq, Repr

/-- Generic split on a character predicate: the chunks between separator
characters, including empty leading/trailing chunks, never returning an
empty list (the behaviour of Rust `str::split`). -/
def splitPred (p : Char → Bool) : List Char → List (List Char)
  | [] => [[]]
  | c :: cs =>
    if p c then [] :: splitPred p cs
    else
      match splitPred p cs with
      | chunk :: rest => (c :: chunk) :: rest
      | [] => [[c]]

/-- Rust `str::split(sep)` on character lists. -/
def splitChar (sep : Char) (l : List Char) : List (List Char) :=
  splitPred (· = sep) l

/-- Rust `str::trim` on character lists: strip leading and trailing
whitespace. -/
def trimChars (l : List Char) : List Char :=
  ((l.dropWhile Char.isWhitespace).reverse.dropWhile Char.isWhitespace).reverse

/-- Rust `str::split_whitespace` on character lists: whitespace-separated
tokens, empty chunks dropped. -/
def whitespaceTokens (l : List Char) : List (List Char) :=
  (splitPred Char.isWhitespace l).filter (· ≠ [])

/-- `get_objective_constraint` from insert_objective.rs lines 48-61:
`constraint int_le(name, bound);` for minimize, the arguments swapped for
maximize, and an error for satisfy. -/
def get_objective_constraint (t : ObjectiveType) (objective_name : String)
    (objective : ObjectiveValue) : Except InsertError String :=
  let int_le := fun (left right : String) =>
    "constraint int_le(" ++ left ++ ", " ++ right ++ ");"
  match t with
  | .Satisfy => .error .GetObjectiveOnSatisfyType
  | .Minimize => .ok (int_le objective_name (toString objective))
  | .Maximize => .ok (int_le (toString objective) objective_name)

/-- The last whitespace-separated token of a string:
`split_whitespace().next_back()` from insert_objective.rs lines 29-32. -/
def lastWhitespaceToken (s : String) : Option String :=
  ((whitespaceTokens s.data).map String.mk).getLast?

/-- `insert_objective` from insert_objective.rs lines 9-46, at the level
of file contents: split on `';'`, require the last chunk (trimmed) to
start with `solve`, take its last token as the objective name, and insert
the constraint chunk immediately before the last chunk, re-joining with
`';'`. -/
def insertObjectiveContent (content : String) (t : ObjectiveType)
    (objective : ObjectiveValue) : Except InsertError String := do
  let statements := (splitChar ';' content.data).map String.mk
  match statements.getLast? with
  | none => .error (.NoStatements content)
  | some lastChunk =>
    let solve_statement := String.mk (trimChars lastChunk.data)
    if ¬ ("solve".data.isPrefixOf solve_statement.data) then
      .error (.LastStatementNotSolve solve_statement)
    else
      match lastWhitespaceToken solve_statement with
      | none => .error .SplitReturnedEmptyIterator
      | some objective_name => do
        let objective_constraint ←
          get_objective_constraint t objective_name objective
        .ok (String.mk (List.intercalate [';']
          ((statements.dropLast ++ [objective_constraint, lastChunk]).map
            String.data)))

/-- The flatfile-selection step of `SolverManager::prepare_solver_process`
(solver_manager.rs lines 294-306), at content level: when the global best
bound is set, try bound injection; on success use the injected content
(second component `true`), otherwise silently fall back to the original
compilation output. -/
def fznFinal (orig : String) (t : ObjectiveType)
    (objective : Option ObjectiveValue) : String × Bool :=
  match objective with
  | some obj =>
    match insertObjectiveContent orig t obj with
    | .ok newContent => (newContent, true)
    | .error _ => (orig, false)
  | none => (orig, false)

/-! ## The solution-stream parser (spec §4.1)

`solver_manager.rs` drives a line parser via `solver_output::Parser::new`
and `parser.next_line(&line)`, but that `Parser` type is not among the
sources; only its caller `handle_solver_stdout`, the terminator literals
in solver_output/dzn.rs and the `MissingObjective` error variant remain.
We therefore model the parser from the spec. -/

/-- Parse a run of decimal digits as a natural number (none when empty or
non-digit characters occur). -/
def parseNatChars (l : List Char) : Option Nat :=
  if l ≠ [] ∧ l.all Char.isDigit then
    some (l.foldl (fun acc c => acc * 10 + (c.toNat - '0'.toNat)) 0)
  else
    none

/-- Parse an optional leading minus sign followed by digits. -/
def parseIntChars (l : List Char) : Option Int :=
  match l with
  | '-' :: ds => (parseNatChars ds).map fun n => -(n : Int)
  | ds => (parseNatChars ds).map fun n => (n : Int)

/-- Modelled from the spec: the state of the missing
`solver_output::Parser` — a line-buffered state machine keeping a
`pending_block` and a `pending_objective` (spec §4.1). -/
structure Parser where
  objective_type : ObjectiveType
  pending_block : String
  pending_objective : Option ObjectiveValue
  deriving DecidableEq, Repr

/-- `Parser::new(objective_type)` as called from
`SolverManager::handle_solver_stdout`. -/
def Parser.new (t : ObjectiveType) : Parser := ⟨t, "", none⟩

/-- Events of the missing parser, as consumed by
`handle_solver_stdout`: a solution block with an optional objective, or a
status. -/
inductive ParseOutput where
  | solution (block : String) (objective : Option ObjectiveValue)
  | status (st : Status)
  deriving DecidableEq, Repr

/-- Per-line parse errors: `MissingObjective` (declared in
solver_output.rs) and a malformed `_objective` line. -/
inductive ParseError where
  | MissingObjective
  | BadObjectiveLine (line : String)
  deriving DecidableEq, Repr

/-- The wire prefix of an objective line (spec §4.1). -/
def OBJECTIVE_PREFIX : String := "_objective = "

/-- The integer payload of an `_objective = ` line: the text after the
prefix up to `';'` or end of line, parsed as a signed integer. -/
def objectiveLineValue (line : String) : Option ObjectiveValue :=
  parseIntChars
    ((line.data.drop OBJECTIVE_PREFIX.data.length).takeWhile (· ≠ ';'))

/-- Whether a line is treated as a pending-objective line (spec §4.1:
only when the objective type is not `Satisfy`). -/
def isObjectiveLine (t : ObjectiveType) (line : String) : Bool :=
  (t ≠ ObjectiveType.Satisfy) && OBJECTIVE_PREFIX.data.isPrefixOf line.data

/-- Modelled from the spec: `Parser::next_line` of the missing
`solver_output::Parser` (spec §4.1).  `----------` emits the pending
solution and clears the state, failing with `MissingObjective` when the
objective type is not `Satisfy` and no objective is pending; the four
status literals emit their statuses; an `_objective = ` line (when the
objective type is not `Satisfy`) stores the parsed signed integer; any
other line is appended to the pending block with a trailing newline.
Per-line errors leave the parser state unchanged. -/
def Parser.next_line (p : Parser) (line : String) :
    Except ParseError (Parser × Option ParseOutput) :=
  if line = SOLUTION_TERMINATOR then
    if p.objective_type ≠ .Satisfy ∧ p.pending_objective = none then
      .error .MissingObjective
    else
      .ok ({ p with pending_block := "", pending_objective := none },
        some (.solution p.pending_block p.pending_objective))
  else if line = DONE_TERMINATOR then
    .ok (p, some (.status .OptimalSolution))
  else if line = UNSATISFIABLE_TERMINATOR then
    .ok (p, some (.status .Unsatisfiable))
  else if line = UNBOUNDED_TERMINATOR then
    .ok (p, some (.status .Unbounded))
  else if line = UNKNOWN_TERMINATOR then
    .ok (p, some (.status .Unknown))
  else if isObjectiveLine p.objective_type line then
    match objectiveLineValue line with
    | some v => .ok ({ p with pending_objective := some v }, none)
    | none => .error (.BadObjectiveLine line)
  else
    .ok ({ p with pending_block := p.pending_block ++ line ++ "\n" }, none)

/-- Feed a transcript line by line, collecting the emitted events and the
per-line errors; an erroneous line does not poison the parser (its state
is kept), mirroring `handle_solver_stdout`, which logs the error and
continues. -/
def Parser.runCollect (p : Parser) :
    List String → Parser × List ParseOutput × List ParseError
  | [] => (p, [], [])
  | l :: rest =>
    match p.next_line l with
    | .ok (p', out) =>
      let r := Parser.runCollect p' rest
      (r.1, out.toList ++ r.2.1, r.2.2)
    | .error e =>
      let r := Parser.runCollect p rest
      (r.1, r.2.1, e :: r.2.2)

/-- The last `_objective` value of a transcript, on top of a previous
pending objective. -/
def transcriptObjective (t : ObjectiveType) (start : Option ObjectiveValue)
    (ls : List String) : Option ObjectiveValue :=
  ls.foldl
    (fun acc l => if isObjectiveLine t l then objectiveLineValue l else acc)
    start

/-- The block accumulated from the content lines of a transcript. -/
def transcriptBlock (t : ObjectiveType) (ls : List String) : String :=
  ls.foldl (fun acc l => if isObjectiveLine t l then acc else acc ++ l ++ "\n")
    ""

/-- A transcript line that is neither of the five terminator literals and
whose objective payload parses when it is an objective line. -/
def goodLine (t : ObjectiveType) (l : String) : Prop :=
  l ≠ SOLUTION_TERMINATOR ∧ l ≠ DONE_TERMINATOR ∧
    l ≠ UNSATISFIABLE_TERMINATOR ∧ l ≠ UNBOUNDED_TERMINATOR ∧
    l ≠ UNKNOWN_TERMINATOR ∧
    (isObjectiveLine t l = true → (objectiveLineValue l).isSome)

instance (t : ObjectiveType) (l : String) : Decidable (goodLine t l) := by
  unfold goodLine; infer_instance

/-! ## Exit codes (src/main.rs lines 109-128) -/

/-- The outcome of the `sunny` orchestrator as `run` in main.rs sees it:
success, user cancellation, or any other error. -/
inductive SunnyOutcome where
  | ok
  | cancelled
  | failed
  deriving DecidableEq, Repr

/-- The outcome of the fallback backup solver. -/
inductive BackupOutcome where
  | ok
  | failed
  deriving DecidableEq, Repr

/-- The process exit code produced by `run` in main.rs lines 109-128: a
successful run returns normally (exit 0), cancellation returns without
running the backup (exit 0), any other error runs the backup solver and
calls `exit(1)` only if the backup also fails; a successful backup falls
through to a normal exit. -/
def runExitCode : SunnyOutcome → BackupOutcome → Nat
  | .ok, _ => 0
  | .cancelled, _ => 0
  | .failed, .failed => 1
  | .failed, .ok => 0

/-! ## Scheduler data model and id assignment (src/scheduler.rs)

`SolverInfo` derives structural equality on all three fields; a
`ScheduleElement` pairs a slot id with a `SolverInfo`; the scheduler's
`running_solvers`/`suspended_solvers` HashMaps are embedded as
association lists with pairwise-distinct keys. -/

/-- `struct SolverInfo` from scheduler.rs lines 42-47. -/
structure SolverInfo where
  name : String
  cores : Nat
  objective : Option ObjectiveValue
  deriving DecidableEq, Repr

/-- A `ScheduleElement` (scheduler.rs lines 27-31): slot id paired with
its `SolverInfo`. -/
abbrev ScheduleElement := Nat × SolverInfo

/-- The inner `while`-loop of `Scheduler::assign_ids` (scheduler.rs lines
520-527): find the first pair whose `SolverInfo` equals the portfolio
entry and remove it, returning its id and the remaining pairs. -/
def findRemove (info : SolverInfo) :
    List ScheduleElement → Option (Nat × List ScheduleElement)
  | [] => none
  | p :: rest =>
    if p.2 = info then some (p.1, rest)
    else
      match findRemove info rest with
      | some (id, rest') => some (id, p :: rest')
      | none => none

/-- `Scheduler::assign_ids` (scheduler.rs lines 499-539): walk the
portfolio in order; reuse the id of the first remaining matching pair of
`running ++ suspended`, consuming it, otherwise mint `next_solver_id` and
increment it. -/
def assignIds : List SolverInfo → List ScheduleElement → Nat →
    List ScheduleElement × Nat
  | [], _, next => ([], next)
  | info :: P, solvers, next =>
    match findRemove info solvers with
    | some (id, solvers') =>
      let r := assignIds P solvers' next
      ((id, info) :: r.1, r.2)
    | none =>
      let r := assignIds P solvers (next + 1)
      ((next, info) :: r.1, r.2)

/-! ## Compilation cache and manager (src/mzn_to_fzn/compilation_manager.rs)

`CompilationManager` keeps `compilations : HashMap<String, Compilation>`
(`Started` or `Done`).  `start_many` filters out names already present
and, under the same write lock, spawns one `convert_mzn` task per new
name and inserts a `Started` entry; the spawned task later replaces the
entry by `Done` (unless its result is a cancellation); `wait_for` only
reads; `stop_many` cancels and removes `Started` entries.  We embed the
map as the set of present keys plus the multiset of spawned tasks not yet
finished, and traces of these atomic operations. -/

/-- The observable state of the compilation manager: which solver names
have an entry in `compilations`, and which spawned compilations have not
yet finished. -/
structure CMState where
  keys : List String
  pending : List String
  deriving DecidableEq, Repr

/-- The atomic operations on the manager: `start` (as invoked by
`SolverManager::prepare_solver_process` and `CompilationManager::start`),
the spawned task finishing (with a cancelled or proper result), a
`wait_for` call, and `stop_many` on one name. -/
inductive CMOp where
  | start (name : String)
  | finish (name : String) (cancelled : Bool)
  | waitFor (name : String)
  | stop (name : String)
  deriving DecidableEq, Repr

/-- One step of the manager, returning the new state and the list of
flattener invocations (spawned `convert_mzn` tasks) this step causes:
`start` spawns exactly when the name has no entry (compilation_manager.rs
lines 55-113); `finish` removes the task from the in-flight set and,
when not cancelled, inserts the `Done` entry (lines 76-98); `wait_for`
only reads (lines 115-166); `stop` cancels and removes a `Started` entry
and leaves `Done` entries alone (lines 168-189). -/
def cmStep (st : CMState) : CMOp → CMState × List String
  | .start name =>
    if name ∈ st.keys then (st, [])
    else ({ keys := name :: st.keys, pending := name :: st.pending }, [name])
  | .finish name cancelled =>
    if name ∈ st.pending then
      if cancelled then ({ st with pending := st.pending.erase name }, [])
      else
        ({ keys := if name ∈ st.keys then st.keys else name :: st.keys,
           pending := st.pending.erase name }, [])
    else (st, [])
  | .waitFor _ => (st, [])
  | .stop name =>
    if name ∈ st.keys ∧ name ∈ st.pending then
      ({ st with keys := st.keys.erase name }, [])
    else (st, [])

/-- Run a trace of manager operations, accumulating every flattener
invocation. -/
def cmRun (st : CMState) : List CMOp → CMState × List String
  | [] => (st, [])
  | op :: ops =>
    let s := cmStep st op
    let r := cmRun s.1 ops
    (r.1, s.2 ++ r.2)

/-! ## Scheduler state and the memory enforcer (src/scheduler.rs)

`struct State` (scheduler.rs lines 81-90) holds the running and
suspended maps, `next_solver_id` and `prev_objective`; the HashMaps are
embedded as association lists.  The enforcer's `f64` arithmetic is
embedded over `ℚ`; the `as u64` cast of the per-core threshold is the
(saturating) floor, and `solver_mem / cores` is `u64` division. -/

/-- `struct State` from scheduler.rs lines 81-90 (the semantic fields:
`running_solvers`, `suspended_solvers`, `next_solver_id`,
`prev_objective`). -/
structure SchedState where
  running : List ScheduleElement
  suspended : List ScheduleElement
  next : Nat
  prevObjective : Option ObjectiveValue
  deriving DecidableEq, Repr

/-- `is_over_threshold` from scheduler.rs lines 105-107. -/
def is_over_threshold (used total threshold : ℚ) : Bool :=
  decide (used / total > threshold)

/-- Insert into a list sorted by descending first component, before equal
keys of later elements (the stable insertion step). -/
def insertMemDesc (p : Nat × Nat) : List (Nat × Nat) → List (Nat × Nat)
  | [] => [p]
  | q :: rest =>
    if q.1 > p.1 then q :: insertMemDesc p rest else p :: q :: rest

/-- `SolverManager::solvers_sorted_by_mem` (solver_manager.rs lines
745-769): the `(memory, id)` pairs sorted by memory descending (Rust's
stable `sort_by_key` with `Reverse`). -/
def sortByMemDesc : List (Nat × Nat) → List (Nat × Nat)
  | [] => []
  | p :: rest => insertMemDesc p (sortByMemDesc rest)

/-- The total process-tree memory of a ranked list, over `ℚ`. -/
def memSum (l : List (Nat × Nat)) : ℚ :=
  (((l.map Prod.fst).sum : ℕ) : ℚ)

/-- The shared shape of the eviction `while`-loops
(`kill_suspended_until_under_threshold`, scheduler.rs lines 213-236, and
the second loop of `kill_running_until_under_threshold`, lines 281-291):
while over threshold and the ranked list is nonempty, stop the first
(largest) solver and subtract its memory. -/
def killWhileOver (threshold total : ℚ) :
    ℚ → List (Nat × Nat) → ℚ × List Nat
  | used, [] => (used, [])
  | used, (memv, id) :: rest =>
    if is_over_threshold used total threshold then
      let r := killWhileOver threshold total (used - (memv : ℚ)) rest
      (r.1, id :: r.2)
    else (used, [])

/-- The first loop of `kill_running_until_under_threshold` (scheduler.rs
lines 258-280): walk the ranked list; a solver with unknown cores is
skipped; one whose memory per core (u64 division) exceeds the per-core
threshold is stopped unconditionally; the rest are kept as `remaining`
in order. -/
def unfairPass (perCore : Nat) (coresOf : Nat → Option Nat) :
    ℚ → List (Nat × Nat) → ℚ × List Nat × List (Nat × Nat)
  | used, [] => (used, [], [])
  | used, (memv, id) :: rest =>
    match coresOf id with
    | none => unfairPass perCore coresOf used rest
    | some cores =>
      if memv / cores > perCore then
        let r := unfairPass perCore coresOf (used - (memv : ℚ)) rest
        (r.1, id :: r.2.1, r.2.2)
      else
        let r := unfairPass perCore coresOf used rest
        (r.1, r.2.1, (memv, id) :: r.2.2)

/-- `kill_running_until_under_threshold` (scheduler.rs lines 238-293) on
a ranked list: immediately return when the running solvers have no
cores; otherwise compute the per-core threshold
`(total / total_cores * θ) as u64`, run the unconditional unfair-share
pass and then stop the remaining solvers largest-first while still over
threshold. -/
def killRunningPass (threshold total : ℚ) (coresOf : Nat → Option Nat)
    (totalCores : Nat) (used : ℚ) (sorted : List (Nat × Nat)) :
    ℚ × List Nat :=
  if totalCores = 0 then (used, [])
  else
    let perCore : Nat := (⌊total / (totalCores : ℚ) * threshold⌋).toNat
    let r1 := unfairPass perCore coresOf used sorted
    let r2 := killWhileOver threshold total r1.1 r1.2.2
    (r2.1, r1.2.1 ++ r2.2)

/-- One tick of `Scheduler::memory_enforcer_loop` (scheduler.rs lines
302-340) under the state lock, parametrised by the solver manager's
active-id set (`remove_exited_solvers`), the per-solver process-tree
memory, and the sampled `used`/`total`: below the threshold nothing
happens; otherwise evict suspended solvers largest-first, and only if
still over threshold evict running solvers.  Returns the new state, the
stopped suspended ids and the stopped running ids. -/
def memoryTick (st : SchedState) (active : Nat → Bool) (mem : Nat → Nat)
    (used total threshold : ℚ) : SchedState × List Nat × List Nat :=
  let st0 : SchedState := { st with
    running := st.running.filter (fun p => active p.1),
    suspended := st.suspended.filter (fun p => active p.1) }
  if ¬ is_over_threshold used total threshold then (st0, [], [])
  else
    let sortedS := sortByMemDesc (st0.suspended.map (fun p => (mem p.1, p.1)))
    let rS := killWhileOver threshold total used sortedS
    let st1 : SchedState := { st0 with
      suspended := st0.suspended.filter (fun p => decide (p.1 ∉ rS.2)) }
    if is_over_threshold rS.1 total threshold then
      let totalCores := (st1.running.map (fun p => p.2.cores)).sum
      let coresOf : Nat → Option Nat := fun id =>
        (st1.running.find? (fun p => p.1 == id)).map (fun p => p.2.cores)
      let sortedR := sortByMemDesc (st1.running.map (fun p => (mem p.1, p.1)))
      let rR := killRunningPass threshold total coresOf totalCores rS.1 sortedR
      ({ st1 with running := st1.running.filter (fun p => decide (p.1 ∉ rR.2)) },
        rS.2, rR.2)
    else (st1, rS.2, [])

/-- The unfair-share predicate of the claim: memory per core (u64
division) exceeds the per-core threshold, for a solver with known
cores. -/
def unfairP (perCore : Nat) (coresOf : Nat → Option Nat)
    (p : Nat × Nat) : Bool :=
  match coresOf p.2 with
  | some cores => decide (p.1 / cores > perCore)
  | none => false

/-- The complement kept by the unfair pass: known cores and within its
fair share. -/
def keptP (perCore : Nat) (coresOf : Nat → Option Nat)
    (p : Nat × Nat) : Bool :=
  match coresOf p.2 with
  | some cores => decide (¬ p.1 / cores > perCore)
  | none => false

/-! ## Scheduler reconciliation (src/scheduler.rs lines 342-497)

`Scheduler::apply` reads the current best bound (Step A), assigns ids
(Step B, `assignIds` above), diffs the schedule against the state maps
(`categorize_schedule`, which first prunes exited solvers), and applies
the changes to the maps (`apply_changes_to_state`).  The HashMap
operations become association-list operations: `insert` replaces the key
and appends, `remove` filters the key out. -/

/-- HashMap `insert` on an association list: replace any binding of the
key and append the new pair. -/
def insertPair (l : List ScheduleElement) (q : ScheduleElement) :
    List ScheduleElement :=
  l.filter (fun p => p.1 != q.1) ++ [q]

/-- HashMap `remove` on an association list. -/
def eraseKey (l : List ScheduleElement) (id : Nat) : List ScheduleElement :=
  l.filter (fun p => p.1 != id)

/-- HashMap lookup on an association list. -/
def lookupId (l : List ScheduleElement) (id : Nat) : Option SolverInfo :=
  (l.find? (fun p => p.1 == id)).map Prod.snd

/-- `struct ScheduleChanges` from scheduler.rs lines 73-78. -/
structure ScheduleChanges where
  to_start : List ScheduleElement
  to_suspend : List Nat
  to_resume : List Nat
  deriving DecidableEq, Repr

/-- The outputs of the loop inside `Scheduler::categorize_schedule`
(scheduler.rs lines 349-372): the kept ids, the ids to resume, the
elements to start, and what remains of the running/suspended key sets
(the leftover running keys become `to_suspend`). -/
structure CatResult where
  keep : List Nat
  toResume : List Nat
  toStart : List ScheduleElement
  remRunning : List Nat
  remSuspended : List Nat
  deriving DecidableEq, Repr

/-- The loop of `Scheduler::categorize_schedule` (scheduler.rs lines
355-364): walk the schedule; an id still in the running set is kept (and
consumed), else an id in the suspended set is resumed (and consumed),
else the element is started. -/
def categorizeLoop : List ScheduleElement → List Nat → List Nat → CatResult
  | [], running, suspended => ⟨[], [], [], running, suspended⟩
  | e :: sch, running, suspended =>
    if e.1 ∈ running then
      let r := categorizeLoop sch (running.erase e.1) suspended
      ⟨e.1 :: r.keep, r.toResume, r.toStart, r.remRunning, r.remSuspended⟩
    else if e.1 ∈ suspended then
      let r := categorizeLoop sch running (suspended.erase e.1)
      ⟨r.keep, e.1 :: r.toResume, r.toStart, r.remRunning, r.remSuspended⟩
    else
      let r := categorizeLoop sch running suspended
      ⟨r.keep, r.toResume, e :: r.toStart, r.remRunning, r.remSuspended⟩

/-- Move the listed ids from `src` to `dst`, looking each up in `src`
(the two symmetric loops of `apply_changes_to_state`, scheduler.rs lines
380-390). -/
def moveAll (src dst : List ScheduleElement) (ids : List Nat) :
    List ScheduleElement × List ScheduleElement :=
  ids.foldl
    (fun ac id =>
      match lookupId ac.1 id with
      | some info => (eraseKey ac.1 id, insertPair ac.2 (id, info))
      | none => ac)
    (src, dst)

/-- `Scheduler::apply_changes_to_state` (scheduler.rs lines 375-391):
insert the elements to start into `running`, move the resumed ids from
`suspended` to `running`, then move the suspended ids from `running` to
`suspended`.  Returns the new `(running, suspended)`. -/
def applyChanges (running suspended : List ScheduleElement)
    (changes : ScheduleChanges) :
    List ScheduleElement × List ScheduleElement :=
  let running1 := changes.to_start.foldl insertPair running
  let m1 := moveAll suspended running1 changes.to_resume
  let m2 := moveAll m1.2 m1.1 changes.to_suspend
  (m2.1, m2.2)

/-- Step A of `Scheduler::apply` (scheduler.rs lines 408-442): when the
broadcast best bound differs from `prev_objective`, update
`prev_objective` and stop (remove from both maps) every solver whose
per-solver best is strictly behind the new bound under `is_better`. -/
def applyStepA (t : ObjectiveType) (st : SchedState)
    (newObjective : Option ObjectiveValue)
    (solverObjectives : List (Nat × Option ObjectiveValue)) : SchedState :=
  if newObjective = st.prevObjective then st
  else
    let st1 := { st with prevObjective := newObjective }
    match newObjective with
    | none => st1
    | some obj =>
      let toRestart := (solverObjectives.filter
        (fun p => t.is_better p.2 obj)).map Prod.fst
      { st1 with
        running := st1.running.filter (fun p => decide (p.1 ∉ toRestart)),
        suspended :=
          st1.suspended.filter (fun p => decide (p.1 ∉ toRestart)) }

/-- `Scheduler::apply` (scheduler.rs lines 393-497) on the scheduler
state: Step A (bound-driven restarts), id assignment over
`running ++ suspended`, categorisation (after pruning ids that are no
longer active, `remove_exited_solvers`), and the state update.  Signal
sending is outside the state; the computed `ScheduleChanges` say which
solvers would be suspended, resumed or started. -/
def applyPure (t : ObjectiveType) (st : SchedState)
    (portfolio : List SolverInfo) (newObjective : Option ObjectiveValue)
    (solverObjectives : List (Nat × Option ObjectiveValue))
    (active : Nat → Bool) : SchedState × ScheduleChanges :=
  let stA := applyStepA t st newObjective solverObjectives
  let r := assignIds portfolio (stA.running ++ stA.suspended) stA.next
  let runP := stA.running.filter (fun p => active p.1)
  let susP := stA.suspended.filter (fun p => active p.1)
  let cat := categorizeLoop r.1 (runP.map Prod.fst) (susP.map Prod.fst)
  let changes : ScheduleChanges := ⟨cat.toStart, cat.remRunning, cat.toResume⟩
  let maps := applyChanges runP susP changes
  (⟨maps.1, maps.2, r.2, stA.prevObjective⟩, changes)

/-- The scheduler-state invariants of the spec: distinct keys, disjoint
maps, and every id below `next_solver_id`. -/
def WFState (st : SchedState) : Prop :=
  (st.running.map Prod.fst).Nodup ∧
    (st.suspended.map Prod.fst).Nodup ∧
    (∀ id ∈ st.running.map Prod.fst, id ∉ st.suspended.map Prod.fst) ∧
    (∀ p ∈ st.running ++ st.suspended, p.1 < st.next)

instance (st : SchedState) : Decidable (WFState st) := by
  unfold WFState; infer_instance

theorem improvingChain_key (t : ObjectiveType) (st : RecvState)
    (msgs : List Msg) :
    improvingChain t st.objective
      (printedObjectives (receiverRun t st msgs).2) := by
  induction msgs generalizing st with
  | nil => simp [receiverRun, printedObjectives, improvingChain]
  | cons m rest ih =>
    cases m with
    | solution s obj =>
      cases obj with
      | some o =>
        by_cases h : t.is_better st.objective o = true
        · simp only [receiverRun, h, if_true]
          simpa [printedObjectives, improvingChain, h] using
            ih { st with objective := some o, shared := some o }
        · simp only [receiverRun, eq_false_of_ne_true h, if_false]
          exact ih st
      | none =>
        simp [receiverRun, printedObjectives, improvingChain]
    | status stat =>
      by_cases h : stat = Status.Unknown
      · simp only [receiverRun, h, if_true]
        exact ih st
      · simp only [receiverRun, h, if_false]
        simp [printedObjectives, improvingChain]

/-- C1: For every run, the receiver prints a solution with objective `o`
only when `is_better` of the best bound so far accepts `o`, and then `o`
becomes the best bound; hence the sequence of solution objectives printed
to stdout never regresses under the run's objective type. -/
theorem receiver_printed_objectives_monotone (t : ObjectiveType)
    (msgs : List Msg) :
    improvingChain t none
      (printedObjectives
        (receiverRun t ⟨none, none, false⟩ msgs).2) := by
  simpa using improvingChain_key t ⟨none, none, false⟩ msgs

/-- C4: on a grammar-conforming FlatZinc file — every statement, including
the final solve item, is terminated by `';'` — splitting on `';'` makes
the last chunk the text after the final `';'`, so `insert_objective`
rejects it with `LastStatementNotSolve` instead of splicing the bound
constraint before the solve statement, and the solver is launched on the
original un-tightened flatfile. -/
theorem insert_objective_fails_on_conforming_flatfile :
    insertObjectiveContent "var 1..5: x;solve minimize x;" .Minimize 3
        = .error (.LastStatementNotSolve "") ∧
      fznFinal "var 1..5: x;solve minimize x;" .Minimize (some 3)
        = ("var 1..5: x;solve minimize x;", false) := by
  constructor <;> rfl

/-- C10: whenever bound injection fails — in particular when the chunk
after the last `';'` does not start with `solve` — `prepare_solver_process`
surfaces no error and silently launches the solver on the original
flatfile from the compilation cache. -/
theorem fznFinal_falls_back_on_insert_error (orig : String)
    (t : ObjectiveType) (obj : ObjectiveValue) (e : InsertError)
    (h : insertObjectiveContent orig t obj = .error e) :
    fznFinal orig t (some obj) = (orig, false) := by
  simp [fznFinal, h]

/-- C10 witness: a flatfile whose trailing chunk is empty is rejected by
injection and the original content is used, with no error surfaced. -/
theorem fznFinal_falls_back_witness :
    insertObjectiveContent "solve satisfy;" .Minimize 7
        = .error (.LastStatementNotSolve "") ∧
      fznFinal "solve satisfy;" .Minimize (some 7)
        = ("solve satisfy;", false) :=
  ⟨rfl, fznFinal_falls_back_on_insert_error "solve satisfy;" .Minimize 7
    (.LastStatementNotSolve "") rfl⟩

theorem runCollect_good (ls : List String) (p : Parser)
    (h : ∀ l ∈ ls, goodLine p.objective_type l) :
    p.runCollect ls =
      ({ p with
          pending_block := ls.foldl
            (fun acc l => if isObjectiveLine p.objective_type l then acc
              else acc ++ l ++ "\n") p.pending_block,
          pending_objective :=
            transcriptObjective p.objective_type p.pending_objective ls },
        [], []) := by
  induction ls generalizing p with
  | nil => simp [Parser.runCollect, transcriptObjective]
  | cons l rest ih =>
    obtain ⟨h1, h2, h3, h4, h5, h6⟩ := h l (by simp)
    have hrest : ∀ x ∈ rest, goodLine p.objective_type x := fun x hx =>
      h x (by simp [hx])
    by_cases hobj : isObjectiveLine p.objective_type l = true
    · obtain ⟨v, hv⟩ := Option.isSome_iff_exists.mp (h6 hobj)
      have hnl : p.next_line l =
          .ok ({ p with pending_objective := some v }, none) := by
        simp [Parser.next_line, h1, h2, h3, h4, h5, hobj, hv]
      have hih := ih { p with pending_objective := some v } hrest
      simp [Parser.runCollect, hnl, hih, transcriptObjective, hobj, hv]
    · have hnl : p.next_line l =
          .ok ({ p with pending_block := p.pending_block ++ l ++ "\n" },
            none) := by
        simp [Parser.next_line, h1, h2, h3, h4, h5, hobj]
      have hih := ih { p with pending_block := p.pending_block ++ l ++ "\n" }
        hrest
      simp [Parser.runCollect, hnl, hih, transcriptObjective, hobj]

theorem runCollect_append (p : Parser) (xs ys : List String) :
    p.runCollect (xs ++ ys) =
      ((p.runCollect xs).1.runCollect ys |>.1,
        (p.runCollect xs).2.1 ++ ((p.runCollect xs).1.runCollect ys).2.1,
        (p.runCollect xs).2.2 ++ ((p.runCollect xs).1.runCollect ys).2.2) := by
  induction xs generalizing p with
  | nil => simp [Parser.runCollect]
  | cons l rest ih =>
    simp only [List.cons_append, Parser.runCollect]
    cases hnl : p.next_line l with
    | ok r => simp [ih r.1]
    | error e => simp [ih p]

/-- C2: feeding the parser a transcript of `N ≥ 0` objective/content lines
followed by `----------` emits exactly one `Solution` event carrying the
accumulated block and the last `_objective` value, except that when the
objective type is not `Satisfy` and no `_objective` line was seen the
terminator fails with `MissingObjective` and nothing is emitted; and the
literal lines `==========`, `=====UNSATISFIABLE=====`,
`=====UNBOUNDED=====`, `=====UNKNOWN=====` each emit the corresponding
status event. -/
theorem parser_transcript_behaviour (t : ObjectiveType) (ls : List String)
    (h : ∀ l ∈ ls, goodLine t l) :
    (((t ≠ ObjectiveType.Satisfy ∧ transcriptObjective t none ls = none) →
        (Parser.new t).runCollect (ls ++ [SOLUTION_TERMINATOR]) =
          (((Parser.new t).runCollect ls).1, [],
            [ParseError.MissingObjective])) ∧
      ((t = ObjectiveType.Satisfy ∨
          (transcriptObjective t none ls).isSome) →
        (Parser.new t).runCollect (ls ++ [SOLUTION_TERMINATOR]) =
          (Parser.new t, [.solution (transcriptBlock t ls)
            (transcriptObjective t none ls)], []))) ∧
      (∀ p : Parser,
        p.next_line DONE_TERMINATOR = .ok (p, some (.status .OptimalSolution)) ∧
        p.next_line UNSATISFIABLE_TERMINATOR
          = .ok (p, some (.status .Unsatisfiable)) ∧
        p.next_line UNBOUNDED_TERMINATOR = .ok (p, some (.status .Unbounded)) ∧
        p.next_line UNKNOWN_TERMINATOR = .ok (p, some (.status .Unknown))) := by
  have hgood := runCollect_good ls (Parser.new t) h
  have happ := runCollect_append (Parser.new t) ls [SOLUTION_TERMINATOR]
  refine ⟨⟨?_, ?_⟩, ?_⟩
  · rintro ⟨ht, hnone⟩
    rw [happ, hgood]
    simp [Parser.runCollect, Parser.next_line, Parser.new, ht, hnone]
  · intro hcase
    rw [happ, hgood]
    rcases hcase with ht | hsome
    · subst ht
      simp [Parser.runCollect, Parser.next_line, Parser.new, transcriptBlock]
    · obtain ⟨v, hv⟩ := Option.isSome_iff_exists.mp hsome
      simp [Parser.runCollect, Parser.next_line, Parser.new, hv,
        transcriptBlock]
  · intro p
    have n1 : DONE_TERMINATOR ≠ SOLUTION_TERMINATOR := by decide
    have n2 : UNSATISFIABLE_TERMINATOR ≠ SOLUTION_TERMINATOR := by decide
    have n3 : UNSATISFIABLE_TERMINATOR ≠ DONE_TERMINATOR := by decide
    have n4 : UNBOUNDED_TERMINATOR ≠ SOLUTION_TERMINATOR := by decide
    have n5 : UNBOUNDED_TERMINATOR ≠ DONE_TERMINATOR := by decide
    have n6 : UNBOUNDED_TERMINATOR ≠ UNSATISFIABLE_TERMINATOR := by decide
    have n7 : UNKNOWN_TERMINATOR ≠ SOLUTION_TERMINATOR := by decide
    have n8 : UNKNOWN_TERMINATOR ≠ DONE_TERMINATOR := by decide
    have n9 : UNKNOWN_TERMINATOR ≠ UNSATISFIABLE_TERMINATOR := by decide
    have n10 : UNKNOWN_TERMINATOR ≠ UNBOUNDED_TERMINATOR := by decide
    refine ⟨?_, ?_, ?_, ?_⟩ <;>
      simp [Parser.next_line, n1, n2, n3, n4, n5, n6, n7, n8, n9, n10]

/-- C2 witness: the two-line transcript `x = 1;` / `_objective = 10;`
followed by the solution terminator yields exactly one solution event
carrying the block and objective `10`. -/
theorem parser_transcript_witness :
    (∀ l ∈ ["x = 1;", "_objective = 10;"], goodLine .Minimize l) ∧
      transcriptBlock .Minimize ["x = 1;", "_objective = 10;"] = "x = 1;\n" ∧
      transcriptObjective .Minimize none ["x = 1;", "_objective = 10;"]
        = some 10 ∧
      (Parser.new .Minimize).runCollect
          (["x = 1;", "_objective = 10;"] ++ [SOLUTION_TERMINATOR])
        = (Parser.new .Minimize, [.solution "x = 1;\n" (some 10)], []) := by
  refine ⟨by decide, by decide, by decide, ?_⟩
  have h := ((parser_transcript_behaviour .Minimize
    ["x = 1;", "_objective = 10;"] (by decide)).1).2 (Or.inr (by decide))
  rw [h]
  decide

/-- C9 counterexample: when the portfolio fails and the backup solver
succeeds the binary exits with code 0, not 2. -/
theorem runExitCode_backup_success_is_zero_not_two :
    runExitCode .failed .ok = 0 ∧ runExitCode .failed .ok ≠ 2 := by
  constructor <;> decide

/-- C9 (amended): the binary exits 0 when the portfolio run succeeds or
is cancelled, 1 when the portfolio fails and the fallback backup solver
also fails, and 0 (not 2) when the portfolio fails but the backup
succeeds. -/
theorem runExitCode_characterization :
    (∀ b, runExitCode .ok b = 0) ∧
      (∀ b, runExitCode .cancelled b = 0) ∧
      runExitCode .failed .failed = 1 ∧
      runExitCode .failed .ok = 0 := by
  refine ⟨fun b => ?_, fun b => ?_, rfl, rfl⟩ <;> cases b <;> rfl

/-- C8: `is_better(old, new)` holds exactly when `old` is `none` or `new`
strictly dominates `old` under the objective type (strictly smaller for
`Minimize`, strictly larger for `Maximize`, `Satisfy` admitting any
solution). -/
theorem is_better_iff_none_or_dominates (t : ObjectiveType)
    (old : Option ObjectiveValue) (new : ObjectiveValue) :
    t.is_better old new = true ↔
      old = none ∨ ∃ v, old = some v ∧ strictlyDominates t v new := by
  cases t <;> cases old <;>
    simp [ObjectiveType.is_better, strictlyDominates]

theorem findRemove_perm (info : SolverInfo) (s : List ScheduleElement)
    (id : Nat) (s' : List ScheduleElement)
    (h : findRemove info s = some (id, s')) : s.Perm ((id, info) :: s') := by
  induction s generalizing id s' with
  | nil => simp [findRemove] at h
  | cons p rest ih =>
    by_cases hp : p.2 = info
    · simp only [findRemove, if_pos hp, Option.some.injEq, Prod.mk.injEq] at h
      obtain ⟨h1, h2⟩ := h
      subst h1; subst h2
      have hpe : p = (p.1, info) := by
        cases p; simp_all
      rw [hpe]
    · simp only [findRemove, if_neg hp] at h
      cases hfr : findRemove info rest with
      | none => rw [hfr] at h; simp at h
      | some pr =>
        rw [hfr] at h
        simp only [Option.some.injEq, Prod.mk.injEq] at h
        obtain ⟨h1, h2⟩ := h
        subst h1; subst h2
        exact ((ih pr.1 pr.2 (by simp [hfr])).cons p).trans
          (List.Perm.swap _ _ _)

theorem findRemove_mem (info : SolverInfo) (s : List ScheduleElement)
    (id : Nat) (s' : List ScheduleElement)
    (h : findRemove info s = some (id, s')) : (id, info) ∈ s :=
  (findRemove_perm info s id s' h).mem_iff.mpr (by simp)

theorem findRemove_sub (info : SolverInfo) (s : List ScheduleElement)
    (id : Nat) (s' : List ScheduleElement)
    (h : findRemove info s = some (id, s')) : ∀ p ∈ s', p ∈ s := by
  intro p hp
  exact (findRemove_perm info s id s' h).mem_iff.mpr (by simp [hp])

theorem assignIds_next_le (P : List SolverInfo) (s : List ScheduleElement)
    (n : Nat) : n ≤ (assignIds P s n).2 := by
  induction P generalizing s n with
  | nil => simp [assignIds]
  | cons info P ih =>
    cases hfr : findRemove info s with
    | none =>
      simp only [assignIds, hfr]
      exact le_trans (Nat.le_succ n) (ih s (n + 1))
    | some pr =>
      simp only [assignIds, hfr]
      exact ih pr.2 n

theorem assignIds_map_snd (P : List SolverInfo) (s : List ScheduleElement)
    (n : Nat) : (assignIds P s n).1.map Prod.snd = P := by
  induction P generalizing s n with
  | nil => simp [assignIds]
  | cons info P ih =>
    cases hfr : findRemove info s with
    | none => simp [assignIds, hfr, ih]
    | some pr => simp [assignIds, hfr, ih]

theorem assignIds_mem (P : List SolverInfo) (s : List ScheduleElement)
    (n : Nat) :
    ∀ p ∈ (assignIds P s n).1,
      p ∈ s ∨ (n ≤ p.1 ∧ p.1 < (assignIds P s n).2) := by
  induction P generalizing s n with
  | nil => simp [assignIds]
  | cons info P ih =>
    intro p hp
    cases hfr : findRemove info s with
    | none =>
      simp only [assignIds, hfr] at hp ⊢
      rcases List.mem_cons.mp hp with hh | ht
      · subst hh
        right
        refine ⟨le_refl n, ?_⟩
        exact lt_of_lt_of_le (Nat.lt_succ_self n) (assignIds_next_le P s (n + 1))
      · rcases ih s (n + 1) p ht with hmem | ⟨hle, hlt⟩
        · exact Or.inl hmem
        · exact Or.inr ⟨le_trans (Nat.le_succ n) hle, hlt⟩
    | some pr =>
      simp only [assignIds, hfr] at hp ⊢
      rcases List.mem_cons.mp hp with hh | ht
      · subst hh
        exact Or.inl (findRemove_mem info s _ _ hfr)
      · rcases ih pr.2 n p ht with hmem | hbnd
        · exact Or.inl (findRemove_sub info s pr.1 pr.2 (by simp [hfr]) p hmem)
        · exact Or.inr hbnd

theorem assignIds_minted (P : List SolverInfo) (s : List ScheduleElement)
    (n : Nat) (hlt : ∀ p ∈ s, p.1 < n) :
    ((assignIds P s n).1.map Prod.fst).filter (fun id => decide (n ≤ id))
      = List.range' n ((assignIds P s n).2 - n) := by
  induction P generalizing s n with
  | nil => simp [assignIds]
  | cons info P ih =>
    cases hfr : findRemove info s with
    | none =>
      simp only [assignIds, hfr, List.map_cons, List.filter_cons]
      have hself : (decide (n ≤ n)) = true := by simp
      rw [hself]
      have hlt' : ∀ p ∈ s, p.1 < n + 1 := fun p hp =>
        Nat.lt_succ_of_lt (hlt p hp)
      have hih := ih s (n + 1) hlt'
      have hfilt :
          ((assignIds P s (n + 1)).1.map Prod.fst).filter
              (fun id => decide (n ≤ id))
            = ((assignIds P s (n + 1)).1.map Prod.fst).filter
              (fun id => decide (n + 1 ≤ id)) := by
        apply List.filter_congr
        intro id hid
        obtain ⟨p, hpmem, hpeq⟩ := List.mem_map.mp hid
        rcases assignIds_mem P s (n + 1) p hpmem with hmem | ⟨hle, _⟩
        · have : p.1 < n := hlt p hmem
          subst hpeq
          simp [Nat.not_le_of_lt this, Nat.not_le_of_lt (Nat.lt_succ_of_lt this)]
        · subst hpeq
          simp [le_trans (Nat.le_succ n) hle, hle]
      rw [hfilt, hih]
      have hge : n + 1 ≤ (assignIds P s (n + 1)).2 := assignIds_next_le P s (n + 1)
      have : (assignIds P s (n + 1)).2 - n
          = ((assignIds P s (n + 1)).2 - (n + 1)) + 1 := by omega
      rw [this, List.range'_succ]
      simp
    | some pr =>
      simp only [assignIds, hfr, List.map_cons, List.filter_cons]
      have hid : pr.1 < n := hlt _ (findRemove_mem info s pr.1 pr.2 (by simp [hfr]))
      have hnle : (decide (n ≤ pr.1)) = false := by
        simp [Nat.not_le_of_lt hid]
      rw [hnle]
      have hlt' : ∀ p ∈ pr.2, p.1 < n := fun p hp =>
        hlt p (findRemove_sub info s pr.1 pr.2 (by simp [hfr]) p hp)
      exact ih pr.2 n hlt'

theorem assignIds_nodup (P : List SolverInfo) (s : List ScheduleElement)
    (n : Nat) (hlt : ∀ p ∈ s, p.1 < n) (hnd : (s.map Prod.fst).Nodup) :
    ((assignIds P s n).1.map Prod.fst).Nodup := by
  induction P generalizing s n with
  | nil => simp [assignIds]
  | cons info P ih =>
    cases hfr : findRemove info s with
    | none =>
      simp only [assignIds, hfr, List.map_cons, List.nodup_cons]
      constructor
      · intro hmem
        obtain ⟨p, hpmem, hpeq⟩ := List.mem_map.mp hmem
        rcases assignIds_mem P s (n + 1) p hpmem with hmem' | ⟨hle, _⟩
        · exact absurd (hpeq ▸ hlt p hmem') (lt_irrefl n)
        · omega
      · exact ih s (n + 1) (fun p hp => Nat.lt_succ_of_lt (hlt p hp)) hnd
    | some pr =>
      simp only [assignIds, hfr, List.map_cons, List.nodup_cons]
      have hperm := findRemove_perm info s pr.1 pr.2 (by simp [hfr])
      have hkeys : (s.map Prod.fst).Perm (pr.1 :: pr.2.map Prod.fst) := by
        simpa using hperm.map Prod.fst
      have hnd' : (pr.1 :: pr.2.map Prod.fst).Nodup := hkeys.nodup_iff.mp hnd
      constructor
      · intro hmem
        obtain ⟨p, hpmem, hpeq⟩ := List.mem_map.mp hmem
        rcases assignIds_mem P pr.2 n p hpmem with hmem' | ⟨hle, _⟩
        · have : p.1 ∈ pr.2.map Prod.fst := List.mem_map.mpr ⟨p, hmem', rfl⟩
          rw [hpeq] at this
          exact (List.nodup_cons.mp hnd').1 this
        · have : pr.1 < n := hlt _ (findRemove_mem info s pr.1 pr.2 (by simp [hfr]))
          omega
      · exact ih pr.2 n
          (fun p hp => hlt p (findRemove_sub info s pr.1 pr.2 (by simp [hfr]) p hp))
          (List.nodup_cons.mp hnd').2

/-- C3: `assign_ids` walks the portfolio in order and produces one
schedule element per entry (carrying exactly that `SolverInfo`); every
element either reuses an existing pair of `running ++ suspended` — so a
reused id maps to a `SolverInfo` equal in all three fields, and a
consumed pair is never matched again (the resulting ids are pairwise
distinct) — or mints a fresh id: `next_solver_id` never decreases and the
minted ids are exactly the consecutive ids
`next, next+1, …` in portfolio order, so ids minted by later `apply`
calls are strictly greater than all earlier ones. -/
theorem assign_ids_spec (P : List SolverInfo) (s : List ScheduleElement)
    (n : Nat) (hlt : ∀ p ∈ s, p.1 < n) (hnd : (s.map Prod.fst).Nodup) :
    (assignIds P s n).1.map Prod.snd = P ∧
      n ≤ (assignIds P s n).2 ∧
      (∀ p ∈ (assignIds P s n).1,
        p ∈ s ∨ (n ≤ p.1 ∧ p.1 < (assignIds P s n).2)) ∧
      ((assignIds P s n).1.map Prod.fst).filter (fun id => decide (n ≤ id))
        = List.range' n ((assignIds P s n).2 - n) ∧
      ((assignIds P s n).1.map Prod.fst).Nodup :=
  ⟨assignIds_map_snd P s n, assignIds_next_le P s n, assignIds_mem P s n,
    assignIds_minted P s n hlt, assignIds_nodup P s n hlt hnd⟩

/-- C3 witness: portfolio `[gecode×2, chuffed×1]` against a single
running slot `(0, gecode×2)` with `next = 1` reuses id `0` and mints
id `1`. -/
theorem assign_ids_spec_witness :
    (∀ p ∈ [((0 : Nat), SolverInfo.mk "gecode" 2 none)], p.1 < 1) ∧
      assignIds [SolverInfo.mk "gecode" 2 none, SolverInfo.mk "chuffed" 1 none]
          [(0, SolverInfo.mk "gecode" 2 none)] 1
        = ([(0, SolverInfo.mk "gecode" 2 none),
            (1, SolverInfo.mk "chuffed" 1 none)], 2) ∧
      (assignIds [SolverInfo.mk "gecode" 2 none, SolverInfo.mk "chuffed" 1 none]
          [(0, SolverInfo.mk "gecode" 2 none)] 1).1.map Prod.snd
        = [SolverInfo.mk "gecode" 2 none, SolverInfo.mk "chuffed" 1 none] := by
  refine ⟨by decide, by decide, ?_⟩
  exact (assign_ids_spec
    [SolverInfo.mk "gecode" 2 none, SolverInfo.mk "chuffed" 1 none]
    [(0, SolverInfo.mk "gecode" 2 none)] 1 (by decide) (by decide)).1

theorem cmRun_no_spawn_of_key (n : String) (ops : List CMOp) (st : CMState)
    (hns : ∀ op ∈ ops, op ≠ .stop n) (hkey : n ∈ st.keys) :
    ((cmRun st ops).2.count n) = 0 := by
  induction ops generalizing st with
  | nil => simp [cmRun]
  | cons op ops ih =>
    have hrest : ∀ o ∈ ops, o ≠ CMOp.stop n := fun o ho => hns o (by simp [ho])
    cases op with
    | start m =>
      by_cases hm : m ∈ st.keys
      · simpa [cmRun, cmStep, hm] using ih st hrest hkey
      · have hmn : m ≠ n := fun hEq => hm (hEq ▸ hkey)
        have hk : n ∈ (CMState.mk (m :: st.keys) (m :: st.pending)).keys := by
          simp [hkey]
        have := ih (CMState.mk (m :: st.keys) (m :: st.pending)) hrest hk
        simp [cmRun, cmStep, hm, this, List.count_cons, hmn]
    | finish m c =>
      by_cases hm : m ∈ st.pending
      · cases c with
        | false =>
          have hk : n ∈ (if m ∈ st.keys then st.keys else m :: st.keys) := by
            split <;> simp [hkey]
          simpa [cmRun, cmStep, hm] using
            ih (CMState.mk (if m ∈ st.keys then st.keys else m :: st.keys)
              (st.pending.erase m)) hrest hk
        | true =>
          simpa [cmRun, cmStep, hm] using
            ih { st with pending := st.pending.erase m } hrest hkey
      · simpa [cmRun, cmStep, hm] using ih st hrest hkey
    | waitFor m =>
      simpa [cmRun, cmStep] using ih st hrest hkey
    | stop m =>
      have hmn : m ≠ n := by
        intro hEq
        exact hns (.stop m) (by simp) (by rw [hEq])
      by_cases hm : m ∈ st.keys ∧ m ∈ st.pending
      · have hk : n ∈ st.keys.erase m :=
          (List.mem_erase_of_ne (Ne.symm hmn)).mpr hkey
        simpa [cmRun, cmStep, hm] using
          ih { st with keys := st.keys.erase m } hrest hk
      · simpa [cmRun, cmStep, hm] using ih st hrest hkey

theorem cmRun_spawn_bound (n : String) (ops : List CMOp) (st : CMState)
    (hns : ∀ op ∈ ops, op ≠ .stop n) :
    ((cmRun st ops).2.count n) ≤ 1 := by
  induction ops generalizing st with
  | nil => simp [cmRun]
  | cons op ops ih =>
    have hrest : ∀ o ∈ ops, o ≠ CMOp.stop n := fun o ho => hns o (by simp [ho])
    cases op with
    | start m =>
      by_cases hm : m ∈ st.keys
      · simpa [cmRun, cmStep, hm] using ih st hrest
      · by_cases hmn : m = n
        · subst hmn
          have hk : m ∈ (CMState.mk (m :: st.keys) (m :: st.pending)).keys := by
            simp
          have h0 := cmRun_no_spawn_of_key m ops
            (CMState.mk (m :: st.keys) (m :: st.pending)) hrest hk
          simp [cmRun, cmStep, hm, h0, List.count_cons]
        · have := ih (CMState.mk (m :: st.keys) (m :: st.pending)) hrest
          simpa [cmRun, cmStep, hm, List.count_cons, hmn] using this
    | finish m c =>
      by_cases hm : m ∈ st.pending
      · cases c with
        | false =>
          simpa [cmRun, cmStep, hm] using
            ih (CMState.mk (if m ∈ st.keys then st.keys else m :: st.keys)
              (st.pending.erase m)) hrest
        | true =>
          simpa [cmRun, cmStep, hm] using
            ih { st with pending := st.pending.erase m } hrest
      · simpa [cmRun, cmStep, hm] using ih st hrest
    | waitFor m =>
      simpa [cmRun, cmStep] using ih st hrest
    | stop m =>
      by_cases hm : m ∈ st.keys ∧ m ∈ st.pending
      · simpa [cmRun, cmStep, hm] using
          ih { st with keys := st.keys.erase m } hrest
      · simpa [cmRun, cmStep, hm] using ih st hrest

/-- C5: the cache runs at most one compilation per solver name: starting
from the empty manager, any operation trace free of `stop` on a name
invokes the flattener for that name at most once (a `start` while the
name is in flight or finished is a no-op, and `wait_for` never spawns). -/
theorem compilation_at_most_one_flatten (n : String) (ops : List CMOp)
    (hns : ∀ op ∈ ops, op ≠ .stop n) :
    ((cmRun ⟨[], []⟩ ops).2.count n) ≤ 1 ∧
      (∀ st : CMState, n ∈ st.keys → cmStep st (.start n) = (st, [])) ∧
      (∀ st : CMState, cmStep st (.waitFor n) = (st, [])) := by
  refine ⟨?_, ?_, ?_⟩
  · have := cmRun_spawn_bound n ops ⟨[], []⟩ hns
    simpa using this
  · intro st hmem
    simp [cmStep, hmem]
  · intro st
    simp [cmStep]

/-- C5 witness: two starts, an overlapping wait and a completion spawn
the flattener exactly once for `gecode`. -/
theorem compilation_at_most_one_flatten_witness :
    (∀ op ∈ [CMOp.start "gecode", CMOp.start "gecode", CMOp.waitFor "gecode",
        CMOp.finish "gecode" false, CMOp.start "gecode"],
      op ≠ CMOp.stop "gecode") ∧
      ((cmRun ⟨[], []⟩ [CMOp.start "gecode", CMOp.start "gecode",
          CMOp.waitFor "gecode", CMOp.finish "gecode" false,
          CMOp.start "gecode"]).2.count "gecode") = 1 ∧
      ((cmRun ⟨[], []⟩ [CMOp.start "gecode", CMOp.start "gecode",
          CMOp.waitFor "gecode", CMOp.finish "gecode" false,
          CMOp.start "gecode"]).2.count "gecode") ≤ 1 := by
  refine ⟨by decide, by decide, ?_⟩
  exact (compilation_at_most_one_flatten "gecode"
    [CMOp.start "gecode", CMOp.start "gecode", CMOp.waitFor "gecode",
      CMOp.finish "gecode" false, CMOp.start "gecode"] (by decide)).1

theorem insertMemDesc_perm (p : Nat × Nat) (l : List (Nat × Nat)) :
    (insertMemDesc p l).Perm (p :: l) := by
  induction l with
  | nil => simp [insertMemDesc]
  | cons q rest ih =>
    by_cases hcmp : q.1 > p.1
    · simp only [insertMemDesc, if_pos hcmp]
      exact (ih.cons q).trans (List.Perm.swap _ _ _)
    · simp [insertMemDesc, if_neg hcmp]

theorem insertMemDesc_sorted (p : Nat × Nat) (l : List (Nat × Nat))
    (h : l.Sorted (fun a b => b.1 ≤ a.1)) :
    (insertMemDesc p l).Sorted (fun a b => b.1 ≤ a.1) := by
  induction l with
  | nil => simp [insertMemDesc]
  | cons q rest ih =>
    rw [List.sorted_cons] at h
    obtain ⟨hq, hrest⟩ := h
    by_cases hcmp : q.1 > p.1
    · simp only [insertMemDesc, if_pos hcmp]
      rw [List.sorted_cons]
      refine ⟨?_, ih hrest⟩
      intro b hb
      have hb' : b ∈ p :: rest := (insertMemDesc_perm p rest).mem_iff.mp hb
      rcases List.mem_cons.mp hb' with hb' | hb'
      · subst hb'
        exact le_of_lt hcmp
      · exact hq b hb'
    · simp only [insertMemDesc, if_neg hcmp]
      rw [List.sorted_cons]
      constructor
      · intro b hb
        rcases List.mem_cons.mp hb with hb | hb
        · subst hb
          omega
        · have := hq b hb
          omega
      · exact List.sorted_cons.mpr ⟨hq, hrest⟩

theorem sortByMemDesc_sorted (l : List (Nat × Nat)) :
    (sortByMemDesc l).Sorted (fun a b => b.1 ≤ a.1) := by
  induction l with
  | nil => simp [sortByMemDesc]
  | cons p rest ih => exact insertMemDesc_sorted p _ ih

theorem sortByMemDesc_perm (l : List (Nat × Nat)) :
    (sortByMemDesc l).Perm l := by
  induction l with
  | nil => simp [sortByMemDesc]
  | cons p rest ih =>
    exact (insertMemDesc_perm p (sortByMemDesc rest)).trans (ih.cons p)

theorem memSum_cons (p : Nat × Nat) (l : List (Nat × Nat)) :
    memSum (p :: l) = (p.1 : ℚ) + memSum l := by
  simp [memSum]

theorem killWhileOver_spec (threshold total : ℚ) (used : ℚ)
    (l : List (Nat × Nat)) :
    ∃ k ≤ l.length,
      killWhileOver threshold total used l
          = (used - memSum (l.take k), (l.take k).map Prod.snd) ∧
        (∀ j < k,
          is_over_threshold (used - memSum (l.take j)) total threshold
            = true) ∧
        (k = l.length ∨
          is_over_threshold (used - memSum (l.take k)) total threshold
            = false) := by
  induction l generalizing used with
  | nil =>
    refine ⟨0, by simp, ?_, ?_, ?_⟩
    · simp [killWhileOver, memSum]
    · omega
    · left; simp
  | cons p rest ih =>
    by_cases hover : is_over_threshold used total threshold = true
    · obtain ⟨k, hk, heq, hall, hlast⟩ := ih (used - (p.1 : ℚ))
      refine ⟨k + 1, by simpa using Nat.succ_le_succ hk, ?_, ?_, ?_⟩
      · cases p with
        | mk memv id =>
          simp only [killWhileOver, if_pos hover, List.take_succ_cons, heq,
            memSum_cons, List.map_cons, Prod.mk.injEq]
          constructor
          · ring
          · simp
      · intro j hj
        cases j with
        | zero => simpa [memSum] using hover
        | succ j' =>
          have hj' : j' < k := by omega
          have hth := hall j' hj'
          rw [List.take_succ_cons, memSum_cons]
          convert hth using 2
          ring
      · rcases hlast with hl | hl
        · left
          simp [hl]
        · right
          rw [List.take_succ_cons, memSum_cons]
          convert hl using 2
          ring
    · have hover' : is_over_threshold used total threshold = false := by
        simpa using hover
      refine ⟨0, by simp, ?_, ?_, ?_⟩
      · cases p with
        | mk memv id =>
          simp [killWhileOver, hover', memSum]
      · omega
      · right
        simpa [memSum] using hover'

theorem unfairPass_spec (perCore : Nat) (coresOf : Nat → Option Nat)
    (used : ℚ) (l : List (Nat × Nat)) :
    unfairPass perCore coresOf used l
      = (used - memSum (l.filter (unfairP perCore coresOf)),
          (l.filter (unfairP perCore coresOf)).map Prod.snd,
          l.filter (keptP perCore coresOf)) := by
  induction l generalizing used with
  | nil => simp [unfairPass, memSum]
  | cons p rest ih =>
    cases p with
    | mk memv id =>
      cases hc : coresOf id with
      | none =>
        have hu : unfairP perCore coresOf (memv, id) = false := by
          simp [unfairP, hc]
        have hk : keptP perCore coresOf (memv, id) = false := by
          simp [keptP, hc]
        simp [unfairPass, hc, ih, hu, hk]
      | some cores =>
        by_cases hgt : memv / cores > perCore
        · have hu : unfairP perCore coresOf (memv, id) = true := by
            simp [unfairP, hc, hgt]
          have hk : keptP perCore coresOf (memv, id) = false := by
            simp [keptP, hc, hgt]
          rw [List.filter_cons_of_pos (by simpa using hu),
            List.filter_cons_of_neg (by simpa using hk)]
          simp only [unfairPass, hc, if_pos hgt, ih, memSum_cons,
            List.map_cons, Prod.mk.injEq]
          constructor
          · ring
          · simp
        · have hu : unfairP perCore coresOf (memv, id) = false := by
            simp [unfairP, hc, hgt]
          have hk : keptP perCore coresOf (memv, id) = true := by
            simp [keptP, hc, hgt]
          rw [List.filter_cons_of_neg (by simpa using hu),
            List.filter_cons_of_pos (by simpa using hk)]
          simp [unfairPass, hc, if_neg hgt, ih]

/-- C7: on an enforcer tick, when `used/total` does not exceed the
threshold no solver is stopped; otherwise suspended solvers are stopped
first, largest process-tree RSS first, until under threshold or the
ranked list is exhausted; only if still over threshold are running
solvers touched, and then every solver whose RSS per core exceeds the
per-core threshold `(total/total_cores)·θ` is stopped unconditionally and
the remaining ones are stopped largest-first until under threshold. -/
theorem memory_enforcer_spec (st : SchedState) (active : Nat → Bool)
    (mem : Nat → Nat) (used total threshold : ℚ)
    (sortedS sortedR : List (Nat × Nat)) (totalCores perCore : Nat)
    (coresOf : Nat → Option Nat)
    (hS : sortedS = sortByMemDesc ((st.suspended.filter
      (fun p => active p.1)).map (fun p => (mem p.1, p.1))))
    (hR : sortedR = sortByMemDesc ((st.running.filter
      (fun p => active p.1)).map (fun p => (mem p.1, p.1))))
    (hTC : totalCores = ((st.running.filter (fun p => active p.1)).map
      (fun p => p.2.cores)).sum)
    (hPC : perCore = (⌊total / (totalCores : ℚ) * threshold⌋).toNat)
    (hCO : coresOf = fun id => ((st.running.filter
      (fun p => active p.1)).find? (fun p => p.1 == id)).map
        (fun p => p.2.cores)) :
    (is_over_threshold used total threshold = false →
      (memoryTick st active mem used total threshold).2.1 = [] ∧
        (memoryTick st active mem used total threshold).2.2 = []) ∧
      sortedS.Sorted (fun a b => b.1 ≤ a.1) ∧
      sortedR.Sorted (fun a b => b.1 ≤ a.1) ∧
      (is_over_threshold used total threshold = true →
        ∃ k ≤ sortedS.length,
          (memoryTick st active mem used total threshold).2.1
              = (sortedS.take k).map Prod.snd ∧
            (∀ j < k, is_over_threshold (used - memSum (sortedS.take j))
              total threshold = true) ∧
            (k = sortedS.length ∨
              is_over_threshold (used - memSum (sortedS.take k)) total
                threshold = false) ∧
            (is_over_threshold (used - memSum (sortedS.take k)) total
                threshold = false →
              (memoryTick st active mem used total threshold).2.2 = []) ∧
            (is_over_threshold (used - memSum (sortedS.take k)) total
                threshold = true →
              (totalCores = 0 →
                (memoryTick st active mem used total threshold).2.2 = []) ∧
              (totalCores ≠ 0 →
                ∃ k2 ≤ (sortedR.filter (keptP perCore coresOf)).length,
                  (memoryTick st active mem used total threshold).2.2
                      = (sortedR.filter (unfairP perCore coresOf)).map
                          Prod.snd ++
                        ((sortedR.filter (keptP perCore coresOf)).take
                          k2).map Prod.snd ∧
                    (∀ j < k2,
                      is_over_threshold ((used - memSum (sortedS.take k))
                          - memSum (sortedR.filter (unfairP perCore coresOf))
                          - memSum ((sortedR.filter
                            (keptP perCore coresOf)).take j)) total
                        threshold = true) ∧
                    (k2 = (sortedR.filter (keptP perCore coresOf)).length ∨
                      is_over_threshold ((used - memSum (sortedS.take k))
                          - memSum (sortedR.filter (unfairP perCore coresOf))
                          - memSum ((sortedR.filter
                            (keptP perCore coresOf)).take k2)) total
                        threshold = false)))) := by
  refine ⟨?_, ?_, ?_, ?_⟩
  · intro h
    simp [memoryTick, h]
  · rw [hS]
    exact sortByMemDesc_sorted _
  · rw [hR]
    exact sortByMemDesc_sorted _
  · intro hover
    obtain ⟨k, hk, heq, hall, hlast⟩ :=
      killWhileOver_spec threshold total used sortedS
    refine ⟨k, hk, ?_, hall, hlast, ?_, ?_⟩
    · simp only [memoryTick, hover, not_true, if_neg, ite_false,
        Bool.not_eq_true]
      rw [← hS, heq]
      split <;> rfl
    · intro hunder
      simp only [memoryTick, hover, Bool.not_eq_true]
      rw [← hS, heq]
      simp [hunder]
    · intro hstill
      constructor
      · intro htc0
        simp only [memoryTick, hover, Bool.not_eq_true]
        rw [← hS, heq]
        simp only [hstill, if_pos, ite_true, killRunningPass]
        rw [← hTC]
        simp [htc0]
      · intro htcn
        obtain ⟨k2, hk2, heq2, hall2, hlast2⟩ :=
          killWhileOver_spec threshold total
            (used - memSum (sortedS.take k)
              - memSum (sortedR.filter (unfairP perCore coresOf)))
            (sortedR.filter (keptP perCore coresOf))
        refine ⟨k2, hk2, ?_, hall2, hlast2⟩
        simp only [memoryTick, hover, Bool.not_eq_true]
        rw [← hS, heq]
        simp only [hstill, ite_true, killRunningPass]
        rw [← hTC, ← hR, ← hCO, ← hPC]
        simp only [htcn, ite_false, if_neg htcn]
        rw [unfairPass_spec]
        simp only [heq2]
        simp

/-- C7 witness: with memory comfortably below the threshold the tick
stops no solver. -/
theorem memory_enforcer_spec_witness :
    is_over_threshold 100 2048 (9 / 10) = false ∧
      (memoryTick
          ⟨[(3, SolverInfo.mk "gecode" 1 none)],
            [(1, SolverInfo.mk "chuffed" 1 none)], 4, none⟩
          (fun _ => true) (fun _ => 100) 100 2048 (9 / 10)).2.1 = [] ∧
      (memoryTick
          ⟨[(3, SolverInfo.mk "gecode" 1 none)],
            [(1, SolverInfo.mk "chuffed" 1 none)], 4, none⟩
          (fun _ => true) (fun _ => 100) 100 2048 (9 / 10)).2.2 = [] := by
  have hunder : is_over_threshold 100 2048 (9 / 10) = false := by
    simp only [is_over_threshold, decide_eq_false_iff_not]
    norm_num
  refine ⟨hunder, ?_⟩
  exact (memory_enforcer_spec
    ⟨[(3, SolverInfo.mk "gecode" 1 none)],
      [(1, SolverInfo.mk "chuffed" 1 none)], 4, none⟩
    (fun _ => true) (fun _ => 100) 100 2048 (9 / 10)
    _ _ _ _ _ rfl rfl rfl rfl rfl).1 hunder

theorem lookupId_mem (l : List ScheduleElement) (id : Nat)
    (h : id ∈ l.map Prod.fst) :
    ∃ info, lookupId l id = some info ∧ (id, info) ∈ l := by
  induction l with
  | nil => simp at h
  | cons p rest ih =>
    by_cases hp : p.1 = id
    · refine ⟨p.2, ?_, ?_⟩
      · simp [lookupId, List.find?_cons, hp]
      · cases p with
        | mk a b =>
          simp only at hp
          subst hp
          exact List.mem_cons_self _ _
    · have h' : id ∈ rest.map Prod.fst := by
        simp only [List.map_cons, List.mem_cons] at h
        tauto
      obtain ⟨info, hl, hm⟩ := ih h'
      refine ⟨info, ?_, by simp [hm]⟩
      simp only [lookupId, List.find?_cons] at hl ⊢
      have : (p.1 == id) = false := by simp [hp]
      rw [this]
      exact hl

theorem pair_unique (l : List ScheduleElement)
    (hnd : (l.map Prod.fst).Nodup) (id : Nat) (info info' : SolverInfo)
    (h1 : (id, info) ∈ l) (h2 : (id, info') ∈ l) : info' = info := by
  induction l with
  | nil => simp at h1
  | cons p rest ih =>
    simp only [List.map_cons, List.nodup_cons] at hnd
    rcases List.mem_cons.mp h1 with he1 | ht1
    · rcases List.mem_cons.mp h2 with he2 | ht2
      · rw [← he1] at he2
        exact ((Prod.mk.injEq _ _ _ _).mp he2).2
      · exfalso
        apply hnd.1
        rw [← he1]
        exact List.mem_map.mpr ⟨(id, info'), ht2, rfl⟩
    · rcases List.mem_cons.mp h2 with he2 | ht2
      · exfalso
        apply hnd.1
        rw [← he2]
        exact List.mem_map.mpr ⟨(id, info), ht1, rfl⟩
      · exact ih hnd.2 ht1 ht2

theorem lookupId_of_mem (l : List ScheduleElement)
    (hnd : (l.map Prod.fst).Nodup) (id : Nat) (info : SolverInfo)
    (h : (id, info) ∈ l) : lookupId l id = some info := by
  have hk : id ∈ l.map Prod.fst := List.mem_map.mpr ⟨(id, info), h, rfl⟩
  obtain ⟨info', hl, hm⟩ := lookupId_mem l id hk
  rw [hl, pair_unique l hnd id info' info hm h]

theorem filter_key_singleton (l : List ScheduleElement)
    (hnd : (l.map Prod.fst).Nodup) (id : Nat) (info : SolverInfo)
    (h : (id, info) ∈ l) :
    l.filter (fun p => p.1 == id) = [(id, info)] := by
  induction l with
  | nil => simp at h
  | cons p rest ih =>
    simp only [List.map_cons, List.nodup_cons] at hnd
    by_cases hp : p.1 = id
    · have hpe : p = (id, info) := by
        rcases List.mem_cons.mp h with he | ht
        · exact he.symm
        · exfalso
          apply hnd.1
          rw [hp]
          exact List.mem_map.mpr ⟨(id, info), ht, rfl⟩
      have hnone : rest.filter (fun p => p.1 == id) = [] := by
        rw [List.filter_eq_nil_iff]
        intro q hq
        simp only [beq_iff_eq]
        intro hqid
        apply hnd.1
        rw [hp, ← hqid]
        exact List.mem_map.mpr ⟨q, hq, rfl⟩
      rw [List.filter_cons_of_pos (by simp [hp]), hnone, hpe]
    · have ht : (id, info) ∈ rest := by
        rcases List.mem_cons.mp h with he | ht
        · exfalso
          apply hp
          rw [← he]
        · exact ht
      rw [List.filter_cons_of_neg (by simp [hp])]
      exact ih hnd.2 ht

theorem findRemove_in_left (info : SolverInfo) (avail rest : List ScheduleElement)
    (h : info ∈ avail.map Prod.snd) :
    ∃ id avail', findRemove info (avail ++ rest) = some (id, avail' ++ rest) ∧
      avail.Perm ((id, info) :: avail') := by
  induction avail with
  | nil => simp at h
  | cons p avail0 ih =>
    by_cases hp : p.2 = info
    · refine ⟨p.1, avail0, ?_, ?_⟩
      · simp [findRemove, hp]
      · have hpe : p = (p.1, info) := by
          cases p; simp_all
        rw [hpe]
    · have h' : info ∈ avail0.map Prod.snd := by
        simp only [List.map_cons, List.mem_cons] at h
        rcases h with he | ht
        · exact absurd he.symm hp
        · exact ht
      obtain ⟨id, avail0', hfr, hperm⟩ := ih h'
      refine ⟨id, p :: avail0', ?_, ?_⟩
      · have heq : findRemove info (p :: (avail0 ++ rest))
            = some (id, p :: (avail0' ++ rest)) := by
          unfold findRemove
          rw [if_neg hp, hfr]
        simpa using heq
      · exact (hperm.cons p).trans (List.Perm.swap _ _ _)

theorem assignIds_consume (P : List SolverInfo)
    (avail rest : List ScheduleElement) (n : Nat)
    (h : (avail.map Prod.snd).Perm P) :
    (assignIds P (avail ++ rest) n).2 = n ∧
      (assignIds P (avail ++ rest) n).1.Perm avail := by
  induction P generalizing avail n with
  | nil =>
    have : avail.map Prod.snd = [] := List.perm_nil.mp h
    have ha : avail = [] := by
      cases avail
      · rfl
      · simp at this
    subst ha
    simp [assignIds]
  | cons p P0 ih =>
    have hp : p ∈ avail.map Prod.snd := h.mem_iff.mpr (by simp)
    obtain ⟨id, avail', hfr, hperm⟩ := findRemove_in_left p avail rest hp
    have hsnd : (avail'.map Prod.snd).Perm P0 := by
      have h1 : (avail.map Prod.snd).Perm (p :: avail'.map Prod.snd) := by
        simpa using hperm.map Prod.snd
      exact (h1.symm.trans h).cons_inv
    obtain ⟨ih1, ih2⟩ := ih avail' n hsnd
    constructor
    · simp only [assignIds, hfr, ih1]
    · simp only [assignIds, hfr]
      exact (ih2.cons (id, p)).trans hperm.symm

theorem insertPair_absent (l : List ScheduleElement) (q : ScheduleElement)
    (h : q.1 ∉ l.map Prod.fst) : insertPair l q = l ++ [q] := by
  unfold insertPair
  congr 1
  rw [List.filter_eq_self]
  intro p hp
  simp only [bne_iff_ne, ne_eq]
  intro he
  apply h
  rw [← he]
  exact List.mem_map.mpr ⟨p, hp, rfl⟩

theorem startFold_append (ts running : List ScheduleElement)
    (hfresh : ∀ e ∈ ts, e.1 ∉ running.map Prod.fst)
    (hnd : (ts.map Prod.fst).Nodup) :
    ts.foldl insertPair running = running ++ ts := by
  induction ts generalizing running with
  | nil => simp
  | cons e ts0 ih =>
    simp only [List.foldl_cons]
    rw [insertPair_absent running e (hfresh e (by simp))]
    rw [ih (running ++ [e])]
    · simp
    · intro e' he'
      simp only [List.map_append, List.mem_append]
      rintro (hh | hh)
      · exact hfresh e' (by simp [he']) hh
      · simp only [List.map_cons, List.map_nil, List.mem_singleton] at hh
        simp only [List.map_cons, List.nodup_cons] at hnd
        exact hnd.1 (hh ▸ List.mem_map.mpr ⟨e', he', rfl⟩)
    · simp only [List.map_cons, List.nodup_cons] at hnd
      exact hnd.2

theorem filtered_keys_nodup (l : List ScheduleElement)
    (q : ScheduleElement → Bool) (h : (l.map Prod.fst).Nodup) :
    ((l.filter q).map Prod.fst).Nodup :=
  h.sublist (List.Sublist.map Prod.fst (List.filter_sublist l))

theorem mem_filtered_keys (l : List ScheduleElement)
    (q : ScheduleElement → Bool) (id : Nat) :
    id ∈ (l.filter q).map Prod.fst ↔
      ∃ p ∈ l, p.1 = id ∧ q p = true := by
  constructor
  · intro h
    obtain ⟨p, hp, he⟩ := List.mem_map.mp h
    obtain ⟨hpl, hq⟩ := List.mem_filter.mp hp
    exact ⟨p, hpl, he, hq⟩
  · rintro ⟨p, hpl, he, hq⟩
    exact List.mem_map.mpr ⟨p, List.mem_filter.mpr ⟨hpl, hq⟩, he⟩

theorem moveAll_spec (ids : List Nat) (src dst : List ScheduleElement)
    (hsrc : (src.map Prod.fst).Nodup) (hids : ids.Nodup)
    (hsub : ∀ id ∈ ids, id ∈ src.map Prod.fst)
    (hdst : ∀ id ∈ ids, id ∉ dst.map Prod.fst) :
    (moveAll src dst ids).1 = src.filter (fun p => decide (p.1 ∉ ids)) ∧
      (moveAll src dst ids).2.Perm
        (dst ++ src.filter (fun p => decide (p.1 ∈ ids))) := by
  induction ids generalizing src dst with
  | nil =>
    constructor
    · simp only [moveAll, List.foldl_nil]
      rw [Eq.comm, List.filter_eq_self]
      simp
    · simp only [moveAll, List.foldl_nil]
      have : src.filter (fun p => decide (p.1 ∈ ([] : List Nat))) = [] := by
        rw [List.filter_eq_nil_iff]
        simp
      rw [this]
      simp
  | cons id rest ih =>
    obtain ⟨info, hlk, hmem⟩ := lookupId_mem src id (hsub id (by simp))
    have hstep : moveAll src dst (id :: rest)
        = moveAll (eraseKey src id) (insertPair dst (id, info)) rest := by
      simp only [moveAll, List.foldl_cons, hlk]
    have hins : insertPair dst (id, info) = dst ++ [(id, info)] :=
      insertPair_absent dst (id, info) (hdst id (by simp))
    have hsrc' : ((eraseKey src id).map Prod.fst).Nodup :=
      filtered_keys_nodup src _ hsrc
    have hrestnd : rest.Nodup := (List.nodup_cons.mp hids).2
    have hidnotrest : id ∉ rest := (List.nodup_cons.mp hids).1
    have hsub' : ∀ i ∈ rest, i ∈ (eraseKey src id).map Prod.fst := by
      intro i hi
      obtain ⟨p, hpl, he⟩ := List.mem_map.mp (hsub i (by simp [hi]))
      apply (mem_filtered_keys _ _ _).mpr
      refine ⟨p, hpl, he, ?_⟩
      simp only [bne_iff_ne, ne_eq, decide_eq_true_eq]
      intro hpid
      rw [he] at hpid
      exact hidnotrest (hpid ▸ hi)
    have hdst' : ∀ i ∈ rest, i ∉ (dst ++ [(id, info)]).map Prod.fst := by
      intro i hi
      simp only [List.map_append, List.mem_append, List.map_cons,
        List.map_nil, List.mem_singleton, not_or]
      constructor
      · exact hdst i (by simp [hi])
      · intro he
        exact hidnotrest (he ▸ hi)
    rw [hstep, hins]
    obtain ⟨ih1, ih2⟩ := ih (eraseKey src id) (dst ++ [(id, info)]) hsrc'
      hrestnd hsub' hdst'
    constructor
    · rw [ih1]
      unfold eraseKey
      rw [List.filter_filter]
      apply List.filter_congr
      intro p hp
      simp only [List.mem_cons, decide_not, Bool.and_eq_true,
        decide_eq_true_eq, Bool.not_eq_true]
      by_cases h1 : p.1 = id <;> by_cases h2 : p.1 ∈ rest <;>
        simp [h1, h2]
    · refine ih2.trans ?_
      rw [List.append_assoc]
      apply List.Perm.append_left
      have hsplit := List.filter_append_perm
        (fun p : ScheduleElement => p.1 == id)
        (src.filter (fun p => decide (p.1 ∈ id :: rest)))
      have he1 : (src.filter (fun p => decide (p.1 ∈ id :: rest))).filter
          (fun p => p.1 == id) = [(id, info)] := by
        rw [List.filter_filter]
        have hcong : src.filter
            (fun p => (p.1 == id) && decide (p.1 ∈ id :: rest))
            = src.filter (fun p => p.1 == id) := by
          apply List.filter_congr
          intro p hp
          by_cases h1 : p.1 = id <;> simp [h1]
        rw [hcong]
        exact filter_key_singleton src hsrc id info hmem
      have he2 : (src.filter (fun p => decide (p.1 ∈ id :: rest))).filter
          (fun p => !(p.1 == id)) = (eraseKey src id).filter
          (fun p => decide (p.1 ∈ rest)) := by
        unfold eraseKey
        rw [List.filter_filter, List.filter_filter]
        apply List.filter_congr
        intro p hp
        by_cases h1 : p.1 = id <;> by_cases h2 : p.1 ∈ rest <;>
          simp [h1, h2, bne]
      rw [he1, he2] at hsplit
      exact hsplit

theorem cat_spec (sch : List ScheduleElement) (runK susK : List Nat)
    (hnr : runK.Nodup) (hns : susK.Nodup)
    (hdisj : ∀ id ∈ runK, id ∉ susK)
    (hsch : (sch.map Prod.fst).Nodup) :
    ((categorizeLoop sch runK susK).keep ++
        (categorizeLoop sch runK susK).toResume ++
        (categorizeLoop sch runK susK).toStart.map Prod.fst).Perm
      (sch.map Prod.fst) ∧
      (∀ id ∈ (categorizeLoop sch runK susK).keep, id ∈ runK) ∧
      (∀ id ∈ (categorizeLoop sch runK susK).toResume,
        id ∈ susK ∧ id ∉ runK) ∧
      (∀ e ∈ (categorizeLoop sch runK susK).toStart,
        e ∈ sch ∧ e.1 ∉ runK ∧ e.1 ∉ susK) ∧
      (∀ e ∈ sch, e.1 ∈ runK → e.1 ∈ (categorizeLoop sch runK susK).keep) ∧
      (∀ e ∈ sch, e.1 ∈ susK → e.1 ∉ runK →
        e.1 ∈ (categorizeLoop sch runK susK).toResume) ∧
      (categorizeLoop sch runK susK).remRunning
        = runK.filter (fun id => decide (id ∉ sch.map Prod.fst)) ∧
      (categorizeLoop sch runK susK).remSuspended
        = susK.filter (fun id => decide (id ∉ sch.map Prod.fst)) := by
  induction sch generalizing runK susK with
  | nil =>
    refine ⟨by simp [categorizeLoop], by simp [categorizeLoop],
      by simp [categorizeLoop], by simp [categorizeLoop],
      by simp [categorizeLoop], by simp [categorizeLoop], ?_, ?_⟩
    · simp only [categorizeLoop]
      rw [Eq.comm, List.filter_eq_self]
      simp
    · simp only [categorizeLoop]
      rw [Eq.comm, List.filter_eq_self]
      simp
  | cons e sch0 ih =>
    simp only [List.map_cons, List.nodup_cons] at hsch
    obtain ⟨hehd, hsch0⟩ := hsch
    by_cases he : e.1 ∈ runK
    · have hih := ih (runK.erase e.1) susK (hnr.erase e.1) hns
        (fun id hid => hdisj id (List.mem_of_mem_erase hid)) hsch0
      obtain ⟨hpart, hkeep, hres, hstart, hkeepall, hresall, hremr, hrems⟩
        := hih
      simp only [categorizeLoop, if_pos he]
      refine ⟨?_, ?_, ?_, ?_, ?_, ?_, ?_, ?_⟩
      · simpa using hpart.cons e.1
      · intro id hid
        rcases List.mem_cons.mp hid with hh | ht
        · exact hh ▸ he
        · exact List.mem_of_mem_erase (hkeep id ht)
      · intro id hid
        obtain ⟨h1, h2⟩ := hres id hid
        refine ⟨h1, ?_⟩
        intro hmem
        have hne : id ≠ e.1 := by
          intro hEq
          exact hdisj e.1 he (hEq ▸ h1)
        exact h2 ((List.mem_erase_of_ne hne).mpr hmem)
      · intro e' he'
        obtain ⟨h1, h2, h3⟩ := hstart e' he'
        refine ⟨by simp [h1], ?_, h3⟩
        intro hmem
        have hne : e'.1 ≠ e.1 := by
          intro hEq
          exact hehd (hEq ▸ List.mem_map.mpr ⟨e', h1, rfl⟩)
        exact h2 ((List.mem_erase_of_ne hne).mpr hmem)
      · intro e' he' hrun
        rcases List.mem_cons.mp he' with hh | ht
        · subst hh
          simp
        · have hne : e'.1 ≠ e.1 := by
            intro hEq
            exact hehd (hEq ▸ List.mem_map.mpr ⟨e', ht, rfl⟩)
          have := hkeepall e' ht ((List.mem_erase_of_ne hne).mpr hrun)
          simp [this]
      · intro e' he' hsus hnrun
        rcases List.mem_cons.mp he' with hh | ht
        · subst hh
          exact absurd he hnrun
        · exact hresall e' ht hsus
            (fun hmem => hnrun (List.mem_of_mem_erase hmem))
      · rw [hremr, hnr.erase_eq_filter, List.filter_filter]
        apply List.filter_congr
        intro id hid
        by_cases h1 : id = e.1 <;>
          by_cases h2 : id ∈ sch0.map Prod.fst <;>
          simp [h1, h2]
      · rw [hrems]
        apply List.filter_congr
        intro id hid
        have hne : id ≠ e.1 := by
          intro hEq
          exact hdisj e.1 he (hEq ▸ hid)
        by_cases h2 : id ∈ sch0.map Prod.fst <;> simp [h2, hne]
    · by_cases hs : e.1 ∈ susK
      · have hih := ih runK (susK.erase e.1) hnr (hns.erase e.1)
          (fun id hid hm => hdisj id hid (List.mem_of_mem_erase hm)) hsch0
        obtain ⟨hpart, hkeep, hres, hstart, hkeepall, hresall, hremr, hrems⟩
          := hih
        simp only [categorizeLoop, if_neg he, if_pos hs]
        refine ⟨?_, ?_, ?_, ?_, ?_, ?_, ?_, ?_⟩
        · have step1 : ((categorizeLoop sch0 runK (susK.erase e.1)).keep ++
              e.1 :: (categorizeLoop sch0 runK (susK.erase e.1)).toResume ++
              (categorizeLoop sch0 runK
                (susK.erase e.1)).toStart.map Prod.fst).Perm
              (e.1 :: sch0.map Prod.fst) := by
            have hmid : ((categorizeLoop sch0 runK (susK.erase e.1)).keep ++
                e.1 :: (categorizeLoop sch0 runK
                  (susK.erase e.1)).toResume).Perm
                (e.1 :: ((categorizeLoop sch0 runK (susK.erase e.1)).keep ++
                  (categorizeLoop sch0 runK
                    (susK.erase e.1)).toResume)) :=
              List.perm_middle
            refine (hmid.append_right _).trans ?_
            simpa using hpart.cons e.1
          simpa using step1
        · exact hkeep
        · intro id hid
          rcases List.mem_cons.mp hid with hh | ht
          · exact hh ▸ ⟨hs, he⟩
          · obtain ⟨h1, h2⟩ := hres id ht
            exact ⟨List.mem_of_mem_erase h1, h2⟩
        · intro e' he'
          obtain ⟨h1, h2, h3⟩ := hstart e' he'
          refine ⟨by simp [h1], h2, ?_⟩
          intro hmem
          have hne : e'.1 ≠ e.1 := by
            intro hEq
            exact hehd (hEq ▸ List.mem_map.mpr ⟨e', h1, rfl⟩)
          exact h3 ((List.mem_erase_of_ne hne).mpr hmem)
        · intro e' he' hrun
          rcases List.mem_cons.mp he' with hh | ht
          · subst hh
            exact absurd hrun he
          · exact hkeepall e' ht hrun
        · intro e' he' hsus hnrun
          rcases List.mem_cons.mp he' with hh | ht
          · subst hh
            simp
          · have hne : e'.1 ≠ e.1 := by
              intro hEq
              exact hehd (hEq ▸ List.mem_map.mpr ⟨e', ht, rfl⟩)
            have := hresall e' ht ((List.mem_erase_of_ne hne).mpr hsus) hnrun
            simp [this]
        · rw [hremr]
          apply List.filter_congr
          intro id hid
          have hne : id ≠ e.1 := by
            intro hEq
            exact hdisj id hid (hEq ▸ hs)
          by_cases h2 : id ∈ sch0.map Prod.fst <;> simp [h2, hne]
        · rw [hrems, hns.erase_eq_filter, List.filter_filter]
          apply List.filter_congr
          intro id hid
          by_cases h1 : id = e.1 <;>
            by_cases h2 : id ∈ sch0.map Prod.fst <;>
            simp [h1, h2]
      · have hih := ih runK susK hnr hns hdisj hsch0
        obtain ⟨hpart, hkeep, hres, hstart, hkeepall, hresall, hremr, hrems⟩
          := hih
        simp only [categorizeLoop, if_neg he, if_neg hs]
        refine ⟨?_, ?_, ?_, ?_, ?_, ?_, ?_, ?_⟩
        · have h1 : ((categorizeLoop sch0 runK susK).toResume ++
              e.1 :: (categorizeLoop sch0 runK susK).toStart.map
                Prod.fst).Perm
              (e.1 :: ((categorizeLoop sch0 runK susK).toResume ++
                (categorizeLoop sch0 runK susK).toStart.map Prod.fst)) :=
            List.perm_middle
          have h2 := h1.append_left (categorizeLoop sch0 runK susK).keep
          have h3 : ((categorizeLoop sch0 runK susK).keep ++
              e.1 :: ((categorizeLoop sch0 runK susK).toResume ++
                (categorizeLoop sch0 runK susK).toStart.map Prod.fst)).Perm
              (e.1 :: ((categorizeLoop sch0 runK susK).keep ++
                ((categorizeLoop sch0 runK susK).toResume ++
                  (categorizeLoop sch0 runK susK).toStart.map Prod.fst))) :=
            List.perm_middle
          rw [List.append_assoc]
          refine (h2.trans h3).trans ?_
          have hcons := hpart.cons e.1
          rw [List.append_assoc] at hcons
          simpa using hcons
        · exact hkeep
        · exact hres
        · intro e' he'
          rcases List.mem_cons.mp he' with hh | ht
          · subst hh
            exact ⟨by simp, he, hs⟩
          · obtain ⟨h1, h2, h3⟩ := hstart e' ht
            exact ⟨by simp [h1], h2, h3⟩
        · intro e' he' hrun
          rcases List.mem_cons.mp he' with hh | ht
          · subst hh
            exact absurd hrun he
          · exact hkeepall e' ht hrun
        · intro e' he' hsus hnrun
          rcases List.mem_cons.mp he' with hh | ht
          · subst hh
            exact absurd hsus hs
          · exact hresall e' ht hsus hnrun
        · rw [hremr]
          apply List.filter_congr
          intro id hid
          have hne : id ≠ e.1 := fun hEq => he (hEq ▸ hid)
          by_cases h2 : id ∈ sch0.map Prod.fst <;> simp [h2, hne]
        · rw [hrems]
          apply List.filter_congr
          intro id hid
          have hne : id ≠ e.1 := fun hEq => hs (hEq ▸ hid)
          by_cases h2 : id ∈ sch0.map Prod.fst <;> simp [h2, hne]

theorem pairs_perm_of_keys (l1 l2 : List ScheduleElement)
    (hk : (l1.map Prod.fst).Perm (l2.map Prod.fst))
    (hnd : (l2.map Prod.fst).Nodup)
    (hsub : ∀ p ∈ l1, p ∈ l2) : l1.Perm l2 := by
  induction l1 generalizing l2 with
  | nil =>
    have h2 : l2.map Prod.fst = [] := List.perm_nil.mp hk.symm
    cases l2 with
    | nil => exact List.Perm.refl _
    | cons q l0 => simp at h2
  | cons p l1' ih =>
    have hnd1 : ((p :: l1').map Prod.fst).Nodup := hk.nodup_iff.mpr hnd
    simp only [List.map_cons, List.nodup_cons] at hnd1
    have hpmem : p ∈ l2 := hsub p (by simp)
    obtain ⟨s, tl, rfl⟩ := List.append_of_mem hpmem
    have hperm2 : (s ++ p :: tl).Perm (p :: (s ++ tl)) := List.perm_middle
    have hkeys' : (l1'.map Prod.fst).Perm ((s ++ tl).map Prod.fst) := by
      have h1 : ((s ++ p :: tl).map Prod.fst).Perm
          (p.1 :: (s ++ tl).map Prod.fst) := by
        simpa using hperm2.map Prod.fst
      exact (hk.trans h1).cons_inv
    have hnd' : ((s ++ tl).map Prod.fst).Nodup := by
      have := hperm2.map Prod.fst |>.nodup_iff.mp hnd
      simp only [List.map_cons, List.nodup_cons] at this
      exact this.2
    have hsub' : ∀ q ∈ l1', q ∈ s ++ tl := by
      intro q hq
      have hqne : q ≠ p := by
        intro hEq
        exact hnd1.1 (hEq ▸ List.mem_map.mpr ⟨q, hq, rfl⟩)
      have hqmem : q ∈ s ++ p :: tl := hsub q (by simp [hq])
      rcases List.mem_append.mp hqmem with hh | ht
      · exact List.mem_append.mpr (Or.inl hh)
      · rcases List.mem_cons.mp ht with hh2 | ht2
        · exact absurd hh2 hqne
        · exact List.mem_append.mpr (Or.inr ht2)
    exact ((ih (s ++ tl) hkeys' hnd' hsub').cons p).trans hperm2.symm

theorem applyStepA_eq_of_same (t : ObjectiveType) (st : SchedState)
    (sObjs : List (Nat × Option ObjectiveValue)) :
    applyStepA t st st.prevObjective sObjs = st := by
  simp [applyStepA]

theorem applyStepA_wf (t : ObjectiveType) (st : SchedState)
    (newObjective : Option ObjectiveValue)
    (sObjs : List (Nat × Option ObjectiveValue)) (hwf : WFState st) :
    WFState (applyStepA t st newObjective sObjs) ∧
      (applyStepA t st newObjective sObjs).next = st.next := by
  obtain ⟨h1, h2, h3, h4⟩ := hwf
  unfold applyStepA
  by_cases he : newObjective = st.prevObjective
  · simp only [if_pos he]
    exact ⟨⟨h1, h2, h3, h4⟩, trivial⟩
  · simp only [if_neg he]
    cases newObjective with
    | none => exact ⟨⟨h1, h2, h3, h4⟩, rfl⟩
    | some obj =>
      refine ⟨⟨filtered_keys_nodup _ _ h1, filtered_keys_nodup _ _ h2,
        ?_, ?_⟩, rfl⟩
      · intro id hid hid2
        obtain ⟨p, hp, hpe, _⟩ := (mem_filtered_keys _ _ _).mp hid
        obtain ⟨q, hq, hqe, _⟩ := (mem_filtered_keys _ _ _).mp hid2
        exact h3 id (List.mem_map.mpr ⟨p, hp, hpe⟩)
          (List.mem_map.mpr ⟨q, hq, hqe⟩)
      · intro p hp
        rcases List.mem_append.mp hp with hh | hh
        · exact h4 p (List.mem_append.mpr (Or.inl
            (List.mem_filter.mp hh).1))
        · exact h4 p (List.mem_append.mpr (Or.inr
            (List.mem_filter.mp hh).1))

theorem applyPure_noop (t : ObjectiveType) (st1 : SchedState)
    (P : List SolverInfo) (sObjs2 : List (Nat × Option ObjectiveValue))
    (active2 : Nat → Bool) (hwf : WFState st1)
    (hperm : (st1.running.map Prod.snd).Perm P)
    (hact : ∀ id ∈ (st1.running ++ st1.suspended).map Prod.fst,
      active2 id = true) :
    applyPure t st1 P st1.prevObjective sObjs2 active2
      = (st1, ⟨[], [], []⟩) := by
  obtain ⟨hnr, hns, hdisj, hlt⟩ := hwf
  have hstA : applyStepA t st1 st1.prevObjective sObjs2 = st1 :=
    applyStepA_eq_of_same t st1 sObjs2
  obtain ⟨hn, hsch⟩ := assignIds_consume P st1.running st1.suspended
    st1.next hperm
  have hrunP : st1.running.filter (fun p => active2 p.1) = st1.running := by
    rw [List.filter_eq_self]
    intro p hp
    exact hact p.1
      (List.mem_map.mpr ⟨p, List.mem_append.mpr (Or.inl hp), rfl⟩)
  have hsusP : st1.suspended.filter (fun p => active2 p.1)
      = st1.suspended := by
    rw [List.filter_eq_self]
    intro p hp
    exact hact p.1
      (List.mem_map.mpr ⟨p, List.mem_append.mpr (Or.inr hp), rfl⟩)
  have hschids : ((assignIds P (st1.running ++ st1.suspended)
      st1.next).1.map Prod.fst).Perm (st1.running.map Prod.fst) :=
    hsch.map Prod.fst
  have hschnd : ((assignIds P (st1.running ++ st1.suspended)
      st1.next).1.map Prod.fst).Nodup := hschids.nodup_iff.mpr hnr
  obtain ⟨hpart, hkeep, hres, hstart, hkeepall, hresall, hremr, hrems⟩ :=
    cat_spec (assignIds P (st1.running ++ st1.suspended) st1.next).1
      (st1.running.map Prod.fst) (st1.suspended.map Prod.fst)
      hnr hns hdisj hschnd
  have hstart_nil : (categorizeLoop
      (assignIds P (st1.running ++ st1.suspended) st1.next).1
      (st1.running.map Prod.fst) (st1.suspended.map Prod.fst)).toStart
      = [] := by
    rw [List.eq_nil_iff_forall_not_mem]
    intro e hmem
    obtain ⟨h1, h2, _⟩ := hstart e hmem
    exact h2 (hschids.mem_iff.mp (List.mem_map.mpr ⟨e, h1, rfl⟩))
  have hres_nil : (categorizeLoop
      (assignIds P (st1.running ++ st1.suspended) st1.next).1
      (st1.running.map Prod.fst) (st1.suspended.map Prod.fst)).toResume
      = [] := by
    rw [List.eq_nil_iff_forall_not_mem]
    intro id hmem
    obtain ⟨_, h2⟩ := hres id hmem
    apply h2
    apply hschids.mem_iff.mp
    apply hpart.mem_iff.mp
    exact List.mem_append.mpr (Or.inl (List.mem_append.mpr (Or.inr hmem)))
  have hrem_nil : (categorizeLoop
      (assignIds P (st1.running ++ st1.suspended) st1.next).1
      (st1.running.map Prod.fst) (st1.suspended.map Prod.fst)).remRunning
      = [] := by
    rw [hremr, List.filter_eq_nil_iff]
    intro id hid
    simp only [decide_eq_true_eq, not_not]
    exact hschids.mem_iff.mpr hid
  simp only [applyPure, hstA, hrunP, hsusP, hstart_nil, hres_nil,
    hrem_nil, hn, applyChanges, moveAll, List.foldl_nil]

theorem pair_eq_of_fst (l : List ScheduleElement)
    (hnd : (l.map Prod.fst).Nodup) (q e : ScheduleElement)
    (hq : q ∈ l) (he : e ∈ l) (hk : e.1 = q.1) : q = e := by
  obtain ⟨qa, qb⟩ := q
  obtain ⟨ea, eb⟩ := e
  simp only at hk
  subst hk
  have := pair_unique l hnd ea qb eb hq he
  rw [this]

theorem applyStepA_prev (t : ObjectiveType) (st : SchedState)
    (obj : Option ObjectiveValue)
    (sObjs : List (Nat × Option ObjectiveValue)) :
    (applyStepA t st obj sObjs).prevObjective = obj := by
  unfold applyStepA
  by_cases h : obj = st.prevObjective
  · rw [if_pos h]
    exact h.symm
  · rw [if_neg h]
    cases obj <;> rfl

theorem applyPure_absorb (t : ObjectiveType) (st : SchedState)
    (P : List SolverInfo) (obj : Option ObjectiveValue)
    (sObjs : List (Nat × Option ObjectiveValue)) (active : Nat → Bool) :
    applyPure t st P obj sObjs active
      = applyPure t (applyStepA t st obj sObjs) P
          ((applyStepA t st obj sObjs).prevObjective) sObjs active := by
  have hidem : applyStepA t (applyStepA t st obj sObjs) obj sObjs
      = applyStepA t st obj sObjs := by
    have h := applyStepA_eq_of_same t (applyStepA t st obj sObjs) sObjs
    rwa [applyStepA_prev] at h
  simp only [applyPure, applyStepA_prev, hidem]

theorem applyBody_spec (t : ObjectiveType) (P : List SolverInfo)
    (active : Nat → Bool) (st0 : SchedState)
    (sObjs : List (Nat × Option ObjectiveValue)) (hwf : WFState st0) :
    WFState (applyPure t st0 P st0.prevObjective sObjs active).1 ∧
      (((applyPure t st0 P st0.prevObjective sObjs active).1.running.map
        Prod.snd).Perm P) := by
  obtain ⟨hnr, hns, hdisj, hlt⟩ := hwf
  have hstA := applyStepA_eq_of_same t st0 sObjs
  simp only [applyPure, hstA, applyChanges]
  set s := st0.running ++ st0.suspended with hsdef
  set n := st0.next with hndef
  set sch := (assignIds P s n).1 with hschdef
  set n' := (assignIds P s n).2 with hnpdef
  have hs_nd : (s.map Prod.fst).Nodup := by
    rw [hsdef, List.map_append]
    exact List.nodup_append.mpr ⟨hnr, hns, hdisj⟩
  have hsnd : sch.map Prod.snd = P := assignIds_map_snd P s n
  have hschnd : (sch.map Prod.fst).Nodup := assignIds_nodup P s n hlt hs_nd
  have hnn' : n ≤ n' := assignIds_next_le P s n
  have hmemsch : ∀ pa ∈ sch, pa ∈ s ∨ (n ≤ pa.1 ∧ pa.1 < n') :=
    assignIds_mem P s n
  have hschlt : ∀ pa ∈ sch, pa.1 < n' := by
    intro pa hpa
    rcases hmemsch pa hpa with hmem | ⟨_, hb⟩
    · exact lt_of_lt_of_le (hlt pa hmem) hnn'
    · exact hb
  set runP := st0.running.filter (fun p => active p.1) with hrunPdef
  set susP := st0.suspended.filter (fun p => active p.1) with hsusPdef
  have hrunknd : (runP.map Prod.fst).Nodup := filtered_keys_nodup _ _ hnr
  have hsusknd : (susP.map Prod.fst).Nodup := filtered_keys_nodup _ _ hns
  have hrunPsub : ∀ p ∈ runP, p ∈ s := by
    intro p hp
    exact List.mem_append.mpr (Or.inl (List.mem_filter.mp hp).1)
  have hsusPsub : ∀ p ∈ susP, p ∈ s := by
    intro p hp
    exact List.mem_append.mpr (Or.inr (List.mem_filter.mp hp).1)
  have hdisjK : ∀ id ∈ runP.map Prod.fst, id ∉ susP.map Prod.fst := by
    intro id h1 h2
    obtain ⟨p, hp, hpe, _⟩ := (mem_filtered_keys _ _ _).mp h1
    obtain ⟨q, hq, hqe, _⟩ := (mem_filtered_keys _ _ _).mp h2
    exact hdisj id (List.mem_map.mpr ⟨p, hp, hpe⟩)
      (List.mem_map.mpr ⟨q, hq, hqe⟩)
  obtain ⟨hpart, hkeep, hres, hstart, hkeepall, hresall, hremr, hrems⟩ :=
    cat_spec sch (runP.map Prod.fst) (susP.map Prod.fst)
      hrunknd hsusknd hdisjK hschnd
  set c := categorizeLoop sch (runP.map Prod.fst) (susP.map Prod.fst)
    with hcdef
  have hbignd : ((c.keep ++ c.toResume) ++ c.toStart.map Prod.fst).Nodup :=
    hpart.nodup_iff.mpr hschnd
  obtain ⟨hnd_kr, hnd_st, hdisj_kr_st⟩ := List.nodup_append.mp hbignd
  obtain ⟨hnd_k, hnd_r, hdisj_k_r⟩ := List.nodup_append.mp hnd_kr
  have hpartsub : ∀ id, id ∈ (c.keep ++ c.toResume) ++
      c.toStart.map Prod.fst → id ∈ sch.map Prod.fst :=
    fun id h => hpart.mem_iff.mp h
  have hrun1 : c.toStart.foldl insertPair runP = runP ++ c.toStart := by
    apply startFold_append
    · exact fun e he => (hstart e he).2.1
    · exact hnd_st
  rw [hrun1]
  have hresume_sub : ∀ id ∈ c.toResume, id ∈ susP.map Prod.fst :=
    fun id h => (hres id h).1
  have hresume_fresh : ∀ id ∈ c.toResume,
      id ∉ (runP ++ c.toStart).map Prod.fst := by
    intro id hid hmem
    rw [List.map_append, List.mem_append] at hmem
    rcases hmem with hh | hh
    · exact (hres id hid).2 hh
    · exact hdisj_kr_st (List.mem_append.mpr (Or.inr hid)) hh
  obtain ⟨hm11, hm12⟩ := moveAll_spec c.toResume susP (runP ++ c.toStart)
    hsusknd hnd_r hresume_sub hresume_fresh
  set m1 := moveAll susP (runP ++ c.toStart) c.toResume with hm1def
  set resumed := susP.filter (fun p => decide (p.1 ∈ c.toResume))
    with hresumeddef
  have hm12keys : (m1.2.map Prod.fst).Perm
      (((runP ++ c.toStart) ++ resumed).map Prod.fst) := hm12.map Prod.fst
  have hresumedkeys : ∀ id ∈ resumed.map Prod.fst,
      id ∈ susP.map Prod.fst ∧ id ∈ c.toResume := by
    intro id hid
    obtain ⟨p, hp, hpe, hq⟩ := (mem_filtered_keys _ _ _).mp hid
    simp only [decide_eq_true_eq] at hq
    exact ⟨List.mem_map.mpr ⟨p, hp, hpe⟩, hpe ▸ hq⟩
  have hm12nd : (m1.2.map Prod.fst).Nodup := by
    apply hm12keys.nodup_iff.mpr
    rw [List.map_append, List.map_append]
    apply List.nodup_append.mpr
    refine ⟨List.nodup_append.mpr ⟨hrunknd, hnd_st, ?_⟩,
      filtered_keys_nodup _ _ hsusknd, ?_⟩
    · intro id hid hid2
      obtain ⟨e, he, hee⟩ := List.mem_map.mp hid2
      exact (hstart e he).2.1 (hee ▸ hid)
    · intro id hid hid2
      obtain ⟨hsk, _⟩ := hresumedkeys id hid2
      rcases List.mem_append.mp hid with hh | hh
      · exact hdisjK id hh hsk
      · obtain ⟨e, he, hee⟩ := List.mem_map.mp hh
        exact (hstart e he).2.2 (hee ▸ hsk)
  have hremnd : c.remRunning.Nodup := by
    rw [hremr]
    exact hrunknd.filter _
  have hremmem : ∀ id ∈ c.remRunning,
      id ∈ runP.map Prod.fst ∧ id ∉ sch.map Prod.fst := by
    intro id hid
    rw [hremr] at hid
    obtain ⟨h1, h2⟩ := List.mem_filter.mp hid
    simp only [decide_eq_true_eq] at h2
    exact ⟨h1, h2⟩
  have hremsub : ∀ id ∈ c.remRunning, id ∈ m1.2.map Prod.fst := by
    intro id hid
    apply hm12keys.mem_iff.mpr
    rw [List.map_append, List.map_append]
    exact List.mem_append.mpr (Or.inl (List.mem_append.mpr
      (Or.inl (hremmem id hid).1)))
  have hremdst : ∀ id ∈ c.remRunning, id ∉ m1.1.map Prod.fst := by
    intro id hid hmem
    rw [hm11] at hmem
    obtain ⟨p, hp, hpe, _⟩ := (mem_filtered_keys _ _ _).mp hmem
    exact hdisjK id (hremmem id hid).1 (List.mem_map.mpr ⟨p, hp, hpe⟩)
  obtain ⟨hm21, hm22⟩ := moveAll_spec c.remRunning m1.2 m1.1
    hm12nd hremnd hremsub hremdst
  set m2 := moveAll m1.2 m1.1 c.remRunning with hm2def
  have hkepteq : runP.filter (fun p => decide (p.1 ∉ c.remRunning))
      = runP.filter (fun p => decide (p.1 ∈ sch.map Prod.fst)) := by
    apply List.filter_congr
    intro p hp
    have hpk : p.1 ∈ runP.map Prod.fst := List.mem_map.mpr ⟨p, hp, rfl⟩
    rw [hremr]
    by_cases hmem : p.1 ∈ sch.map Prod.fst <;>
      simp [hmem, List.mem_filter, hpk]
  have hrunning3 : m2.1.Perm
      ((runP.filter (fun p => decide (p.1 ∈ sch.map Prod.fst))
        ++ c.toStart) ++ resumed) := by
    rw [hm2def, hm21]
    refine (hm12.filter _).trans ?_
    rw [List.filter_append, List.filter_append]
    have h1 : c.toStart.filter (fun p => decide (p.1 ∉ c.remRunning))
        = c.toStart := by
      rw [List.filter_eq_self]
      intro e he
      simp only [decide_eq_true_eq]
      intro hmem
      exact (hstart e he).2.1 (hremmem e.1 hmem).1
    have h2 : resumed.filter (fun p => decide (p.1 ∉ c.remRunning))
        = resumed := by
      rw [List.filter_eq_self]
      intro p hp
      simp only [decide_eq_true_eq]
      intro hmem
      have := hresumedkeys p.1 (List.mem_map.mpr ⟨p, hp, rfl⟩)
      exact hdisjK p.1 (hremmem p.1 hmem).1 this.1
    rw [h1, h2, hkepteq]
  have hpair_in_sch : ∀ q ∈ (runP.filter
      (fun p => decide (p.1 ∈ sch.map Prod.fst)) ++ c.toStart) ++ resumed,
      q ∈ sch := by
    intro q hq
    rcases List.mem_append.mp hq with hq1 | hq2
    · rcases List.mem_append.mp hq1 with hq3 | hq4
      · obtain ⟨hqrunP, hqk⟩ := List.mem_filter.mp hq3
        simp only [decide_eq_true_eq] at hqk
        obtain ⟨e, he, hee⟩ := List.mem_map.mp hqk
        rcases hmemsch e he with hes | ⟨hge, _⟩
        · have hqe : q = e :=
            pair_eq_of_fst s hs_nd q e (hrunPsub q hqrunP) hes hee
          exact hqe ▸ he
        · exfalso
          have hqlt : q.1 < n := hlt q (hrunPsub q hqrunP)
          omega
      · exact (hstart q hq4).1
    · obtain ⟨hqsusP, hqk⟩ := List.mem_filter.mp hq2
      simp only [decide_eq_true_eq] at hqk
      have hqid : q.1 ∈ sch.map Prod.fst := by
        apply hpartsub
        exact List.mem_append.mpr (Or.inl (List.mem_append.mpr
          (Or.inr hqk)))
      obtain ⟨e, he, hee⟩ := List.mem_map.mp hqid
      rcases hmemsch e he with hes | ⟨hge, _⟩
      · have hqe : q = e :=
          pair_eq_of_fst s hs_nd q e (hsusPsub q hqsusP) hes hee
        exact hqe ▸ he
      · exfalso
        have hqlt : q.1 < n := hlt q (hsusPsub q hqsusP)
        omega
  have hkeys3 : ((((runP.filter
      (fun p => decide (p.1 ∈ sch.map Prod.fst))) ++ c.toStart)
        ++ resumed).map Prod.fst).Perm (sch.map Prod.fst) := by
    rw [List.map_append, List.map_append]
    have hkeepperm : ((runP.filter
        (fun p => decide (p.1 ∈ sch.map Prod.fst))).map Prod.fst).Perm
        c.keep := by
      apply List.perm_ext_iff_of_nodup (filtered_keys_nodup _ _ hrunknd)
        hnd_k |>.mpr
      intro id
      rw [mem_filtered_keys]
      constructor
      · rintro ⟨p, hp, hpe, hq⟩
        simp only [decide_eq_true_eq] at hq
        obtain ⟨e, he, hee⟩ := List.mem_map.mp hq
        have hkmem : e.1 ∈ runP.map Prod.fst := by
          rw [hee]
          exact List.mem_map.mpr ⟨p, hp, rfl⟩
        have hk := hkeepall e he hkmem
        rw [hee, hpe] at hk
        exact hk
      · intro hid
        have hidr : id ∈ runP.map Prod.fst := hkeep id hid
        obtain ⟨p, hp, hpe⟩ := List.mem_map.mp hidr
        refine ⟨p, hp, hpe, ?_⟩
        simp only [decide_eq_true_eq]
        rw [hpe]
        apply hpartsub
        exact List.mem_append.mpr (Or.inl (List.mem_append.mpr
          (Or.inl hid)))
    have hresperm : (resumed.map Prod.fst).Perm c.toResume := by
      apply List.perm_ext_iff_of_nodup (filtered_keys_nodup _ _ hsusknd)
        hnd_r |>.mpr
      intro id
      constructor
      · intro hid
        exact (hresumedkeys id hid).2
      · intro hid
        obtain ⟨p, hp, hpe⟩ := List.mem_map.mp (hresume_sub id hid)
        refine (mem_filtered_keys susP
          (fun p => decide (p.1 ∈ c.toResume)) id).mpr ⟨p, hp, hpe, ?_⟩
        simp only [decide_eq_true_eq]
        rw [hpe]
        exact hid
    refine ((hkeepperm.append (List.Perm.refl _)).append hresperm).trans ?_
    refine List.Perm.trans ?_ hpart
    rw [List.append_assoc, List.append_assoc]
    exact List.Perm.append_left c.keep
      (@List.perm_append_comm _ (c.toStart.map Prod.fst) c.toResume)
  have hfinalperm : m2.1.Perm sch := by
    refine hrunning3.trans ?_
    exact pairs_perm_of_keys _ _ hkeys3 hschnd hpair_in_sch
  have hsusp3 : m2.2.Perm (susP.filter
      (fun p => decide (p.1 ∉ c.toResume)) ++
      runP.filter (fun p => decide (p.1 ∈ c.remRunning))) := by
    rw [hm2def]
    refine hm22.trans ?_
    rw [hm11]
    apply List.Perm.append_left
    refine (hm12.filter _).trans ?_
    rw [List.filter_append, List.filter_append]
    have h1 : c.toStart.filter (fun p => decide (p.1 ∈ c.remRunning))
        = [] := by
      rw [List.filter_eq_nil_iff]
      intro e he
      simp only [decide_eq_true_eq]
      intro hmem
      exact (hstart e he).2.1 (hremmem e.1 hmem).1
    have h2 : resumed.filter (fun p => decide (p.1 ∈ c.remRunning))
        = [] := by
      rw [List.filter_eq_nil_iff]
      intro p hp
      simp only [decide_eq_true_eq]
      intro hmem
      exact hdisjK p.1 (hremmem p.1 hmem).1
        (hresumedkeys p.1 (List.mem_map.mpr ⟨p, hp, rfl⟩)).1
    rw [h1, h2]
    simp
  refine ⟨⟨?_, ?_, ?_, ?_⟩, ?_⟩
  · exact (hfinalperm.map Prod.fst).nodup_iff.mpr hschnd
  · apply (hsusp3.map Prod.fst).nodup_iff.mpr
    rw [List.map_append]
    apply List.nodup_append.mpr
    refine ⟨filtered_keys_nodup _ _ hsusknd, filtered_keys_nodup _ _ hrunknd,
      ?_⟩
    intro id hid hid2
    obtain ⟨p, hp, hpe, _⟩ := (mem_filtered_keys _ _ _).mp hid
    obtain ⟨q, hq, hqe, _⟩ := (mem_filtered_keys _ _ _).mp hid2
    exact hdisjK id (List.mem_map.mpr ⟨q, hq, hqe⟩)
      (List.mem_map.mpr ⟨p, hp, hpe⟩)
  · intro id hid hid2
    have hid' : id ∈ sch.map Prod.fst :=
      (hfinalperm.map Prod.fst).mem_iff.mp hid
    have hid2' := (hsusp3.map Prod.fst).mem_iff.mp hid2
    rw [List.map_append, List.mem_append] at hid2'
    rcases hid2' with hh | hh
    · obtain ⟨p, hp, hpe, hq⟩ := (mem_filtered_keys _ _ _).mp hh
      simp only [decide_eq_true_eq] at hq
      obtain ⟨e, he, hee⟩ := List.mem_map.mp hid'
      have hinsus : id ∈ susP.map Prod.fst := List.mem_map.mpr ⟨p, hp, hpe⟩
      have hnotrun : id ∉ runP.map Prod.fst := fun hm => hdisjK id hm hinsus
      have hs1 : e.1 ∈ susP.map Prod.fst := by rw [hee]; exact hinsus
      have hs2 : e.1 ∉ runP.map Prod.fst := by rw [hee]; exact hnotrun
      have hr := hresall e he hs1 hs2
      rw [hee] at hr
      apply hq
      rw [hpe]
      exact hr
    · obtain ⟨p, hp, hpe, hq⟩ := (mem_filtered_keys _ _ _).mp hh
      simp only [decide_eq_true_eq] at hq
      exact (hremmem p.1 hq).2 (hpe ▸ hid')
  · intro p hp
    rw [List.mem_append] at hp
    rcases hp with hh | hh
    · have := hfinalperm.mem_iff.mp hh
      exact hschlt p this
    · have := hsusp3.mem_iff.mp hh
      rw [List.mem_append] at this
      rcases this with h1 | h1
      · exact lt_of_lt_of_le (hlt p (hsusPsub p (List.mem_filter.mp h1).1))
          hnn'
      · exact lt_of_lt_of_le (hlt p (hrunPsub p (List.mem_filter.mp h1).1))
          hnn'
  · have := hfinalperm.map Prod.snd
    rw [hsnd] at this
    exact this

theorem applyPure_post (t : ObjectiveType) (st : SchedState)
    (P : List SolverInfo) (obj : Option ObjectiveValue)
    (sObjs : List (Nat × Option ObjectiveValue)) (active : Nat → Bool)
    (hwf : WFState st) :
    WFState (applyPure t st P obj sObjs active).1 ∧
      (((applyPure t st P obj sObjs active).1.running.map
        Prod.snd).Perm P) := by
  rw [applyPure_absorb t st P obj sObjs active]
  exact applyBody_spec t P active (applyStepA t st obj sObjs) sObjs
    (applyStepA_wf t st obj sObjs hwf).1

/-- **C6**: calling `Scheduler::apply` a second time with the same
portfolio while the global best bound is unchanged is a no-op on
`{running, suspended}`: the bound check runs but the computed
`ScheduleChanges` are empty (no solver is stopped, started, suspended or
resumed) and the scheduler state is unchanged afterwards.  The second
call carries the same bound `obj` the first call installed as
`prev_objective`; `active2` says no solver exited in between. -/
theorem apply_twice_same_portfolio_noop (t : ObjectiveType)
    (st : SchedState) (P : List SolverInfo) (obj : Option ObjectiveValue)
    (sObjs1 sObjs2 : List (Nat × Option ObjectiveValue))
    (active1 active2 : Nat → Bool) (hwf : WFState st)
    (hact : ∀ id ∈ ((applyPure t st P obj sObjs1 active1).1.running ++
        (applyPure t st P obj sObjs1 active1).1.suspended).map Prod.fst,
      active2 id = true) :
    applyPure t (applyPure t st P obj sObjs1 active1).1 P obj sObjs2
        active2
      = ((applyPure t st P obj sObjs1 active1).1, ⟨[], [], []⟩) := by
  obtain ⟨hwf1, hperm1⟩ := applyPure_post t st P obj sObjs1 active1 hwf
  set st1 := (applyPure t st P obj sObjs1 active1).1 with hst1
  have hprev : st1.prevObjective = obj := by
    rw [hst1]
    simp only [applyPure]
    exact applyStepA_prev t st obj sObjs1
  rw [← hprev]
  exact applyPure_noop t st1 P sObjs2 active2 hwf1 hperm1 hact

theorem apply_twice_same_portfolio_noop_witness :
    applyPure ObjectiveType.Minimize
        (applyPure ObjectiveType.Minimize ⟨[], [], 0, none⟩
          [⟨"gecode", 1, none⟩] (some 7) [] (fun _ => true)).1
        [⟨"gecode", 1, none⟩] (some 7) [] (fun _ => true)
      = ((applyPure ObjectiveType.Minimize ⟨[], [], 0, none⟩
          [⟨"gecode", 1, none⟩] (some 7) [] (fun _ => true)).1,
         ⟨[], [], []⟩) :=
  apply_twice_same_portfolio_noop ObjectiveType.Minimize ⟨[], [], 0, none⟩
    [⟨"gecode", 1, none⟩] (some 7) [] [] (fun _ => true) (fun _ => true)
    (by decide) (by intro id h; rfl)

end PortfolioSolver